import Mathlib

/-!
Verification development for the `rust-bandits` multi-armed-bandit service.

Shallow embedding conventions:
* `f64` quantities that the claims manipulate exactly (rewards, counts,
  epsilon, timestamps used only for ordering) are modelled as `ℚ`; `f64`
  quantities flowing through transcendental functions (`exp`, `ln`, `sqrt`
  in Thompson Sampling and UCB score computations) are modelled as `ℝ`.
* `HashMap<usize, Arm>` is modelled as an association list
  `List (Nat × Arm)`; the source's iteration order is unspecified, the
  list order stands for one admissible iteration order.  `insert` replaces
  an existing binding in place or appends a fresh one, as `HashMap::insert`
  does.
* `rand`-driven choices are externalized: `choose` from `IteratorRandom`
  is modelled by an arbitrary index `k` (uniform choice means every `k` is
  possible), the `rng.random::<f64>() < epsilon` coin of epsilon-greedy by
  an arbitrary `explore : Bool`, and the Beta-distribution samples of
  Thompson Sampling by an arbitrary valuation `ℕ → ℝ`.
* Fallible methods return `Except PolicyError σ` (σ the new state); batch
  updates return `σ × Option PolicyError` because `try_for_each` leaves the
  partially mutated state in place on error.
-/

namespace RustBandits

/-- Policy-level errors, from `src/errors.rs` (`PolicyError`), with the
extra `DrawNotFound` variant present in `src/policies/errors.rs`. -/
inductive PolicyError where
  | NoArmsAvailable : PolicyError
  | ArmNotFound (arm : Nat) : PolicyError
  | SamplingError (reason : String) : PolicyError
  | DrawNotFound (draw : Nat) (arm : Nat) : PolicyError
deriving DecidableEq, Repr

/-- Repository-level errors, from `src/errors.rs` (`RepositoryError`).
Experiment ids (`Uuid`) are modelled as naturals. -/
inductive RepositoryError where
  | ExperimentNotFound (id : Nat) : RepositoryError
  | Experiment : RepositoryError
deriving DecidableEq, Repr

instance exceptDecidableEq {E A : Type} [DecidableEq E] [DecidableEq A] :
    DecidableEq (Except E A) := fun x y =>
  match x, y with
  | .ok a, .ok b =>
    if h : a = b then .isTrue (by rw [h])
    else .isFalse (by intro he; injection he; exact h (by assumption))
  | .error a, .error b =>
    if h : a = b then .isTrue (by rw [h])
    else .isFalse (by intro he; injection he; exact h (by assumption))
  | .ok _, .error _ => .isFalse (by intro he; cases he)
  | .error _, .ok _ => .isFalse (by intro he; cases he)

/-! ### Association lists modelling `HashMap<usize, A>` -/

/-- Model of `HashMap::get`: first binding of key `k`. -/
def alGet {A : Type} (k : Nat) : List (Nat × A) → Option A
  | [] => none
  | (k', a) :: t => if k' = k then some a else alGet k t

/-- Model of `HashMap::insert`: replace the binding of `k` in place if present,
otherwise append a fresh binding. -/
def alInsert {A : Type} (k : Nat) (v : A) : List (Nat × A) → List (Nat × A)
  | [] => [(k, v)]
  | (k', a) :: t => if k' = k then (k', v) :: t else (k', a) :: alInsert k v t

/-- Model of `HashMap::get_mut` followed by a mutation: apply `f` to the binding of
`k` when present, leave the map unchanged otherwise. -/
def alUpdate {A : Type} (k : Nat) (f : A → A) : List (Nat × A) → List (Nat × A)
  | [] => []
  | (k', a) :: t => if k' = k then (k', f a) :: t else (k', a) :: alUpdate k f t

/-- Model of `HashMap::remove` (the source discards the returned value). -/
def alRemove {A : Type} (k : Nat) (l : List (Nat × A)) : List (Nat × A) :=
  l.filter (fun p => p.1 ≠ k)

/-- The key set, in iteration order. -/
def alKeys {A : Type} (l : List (Nat × A)) : List Nat := l.map Prod.fst

theorem alGet_update_ne {A : Type} (k j : Nat) (f : A → A) (l : List (Nat × A))
    (h : j ≠ k) : alGet j (alUpdate k f l) = alGet j l := by
  induction l with
  | nil => rfl
  | cons p t ih =>
    obtain ⟨k', a⟩ := p
    by_cases hk : k' = k
    · subst hk
      simp [alUpdate, alGet, Ne.symm h]
    · simp only [alUpdate, if_neg hk]
      by_cases hj : k' = j
      · simp [alGet, hj]
      · simp [alGet, hj, ih]

theorem alGet_update_eq {A : Type} (k : Nat) (f : A → A) (l : List (Nat × A)) :
    alGet k (alUpdate k f l) = (alGet k l).map f := by
  induction l with
  | nil => rfl
  | cons p t ih =>
    obtain ⟨k', a⟩ := p
    by_cases hk : k' = k
    · simp [alUpdate, alGet, hk]
    · simp [alUpdate, alGet, hk, ih]

theorem alGet_insert_fresh {A : Type} (k : Nat) (v : A) (l : List (Nat × A))
    (h : k ∉ alKeys l) : alInsert k v l = l ++ [(k, v)] := by
  induction l with
  | nil => rfl
  | cons p t ih =>
    obtain ⟨k', a⟩ := p
    simp only [alKeys, List.map_cons, List.mem_cons] at h
    push_neg at h
    simp only [alInsert, if_neg (Ne.symm h.1), List.cons_append, List.cons.injEq, true_and]
    exact ih (by simpa [alKeys] using h.2)

theorem alGet_append_single_ne {A : Type} (k j : Nat) (v : A) (l : List (Nat × A))
    (h : j ≠ k) : alGet j (l ++ [(k, v)]) = alGet j l := by
  induction l with
  | nil => simp [alGet, Ne.symm h]
  | cons p t ih =>
    obtain ⟨k', a⟩ := p
    by_cases hk : k' = j
    · simp [alGet, hk]
    · simp [alGet, hk, ih]

theorem alKeys_append {A : Type} (l₁ l₂ : List (Nat × A)) :
    alKeys (l₁ ++ l₂) = alKeys l₁ ++ alKeys l₂ := by
  simp [alKeys]

theorem alGet_remove {A : Type} (k : Nat) (l : List (Nat × A)) :
    alGet k (alRemove k l) = none := by
  induction l with
  | nil => rfl
  | cons p t ih =>
    obtain ⟨k', a⟩ := p
    by_cases hk : k' = k
    · simpa [alRemove, List.filter, hk] using ih
    · simpa [alRemove, List.filter, hk, alGet] using ih

theorem alGet_eq_none_of_not_mem_keys {A : Type} (k : Nat) (l : List (Nat × A))
    (h : k ∉ alKeys l) : alGet k l = none := by
  induction l with
  | nil => rfl
  | cons p t ih =>
    obtain ⟨k', a⟩ := p
    simp only [alKeys, List.map_cons, List.mem_cons] at h
    push_neg at h
    simp [alGet, Ne.symm h.1, ih (by simpa [alKeys] using h.2)]

/-! ### Externalized randomness -/

/-- Model of `IteratorRandom::choose`: a uniformly random element of the collection,
`none` exactly when it is empty.  The random draw is externalized into the
index `k`; as `k` ranges over `ℕ` every element is chosen. -/
def choose {A : Type} (k : Nat) (l : List A) : Option A :=
  l.get? (k % l.length)

theorem choose_nil {A : Type} (k : Nat) : choose k ([] : List A) = none := by
  simp [choose]

theorem choose_isSome_of_ne_nil {A : Type} (k : Nat) (l : List A) (h : l ≠ []) :
    ∃ a, choose k l = some a ∧ a ∈ l := by
  have hlen : 0 < l.length := List.length_pos.mpr h
  have hlt : k % l.length < l.length := Nat.mod_lt _ hlen
  exact ⟨l.get ⟨k % l.length, hlt⟩, List.get?_eq_get hlt, l.get_mem _ _⟩

/-- Model of `Iterator::max_by` on the values of `f`: `none` exactly on the empty
iterator; on ties the later element wins, as in `rand`'s `max_by`. -/
def maxByVal {A B : Type} [LinearOrder B] (f : A → B) (l : List A) : Option A :=
  l.foldl (fun acc x =>
    match acc with
    | none => some x
    | some y => if f y ≤ f x then some x else some y) none

theorem maxByVal_go_mem {A B : Type} [LinearOrder B] (f : A → B) :
    ∀ (l : List A) (acc : A) (r : A),
      l.foldl (fun acc x =>
        match acc with
        | none => some x
        | some y => if f y ≤ f x then some x else some y) (some acc) = some r →
      r = acc ∨ r ∈ l := by
  intro l
  induction l with
  | nil => intro acc r h; simp at h; exact Or.inl h.symm
  | cons x t ih =>
    intro acc r h
    simp only [List.foldl_cons] at h
    by_cases hle : f acc ≤ f x
    · rw [if_pos hle] at h
      rcases ih x r h with h1 | h1
      · exact Or.inr (by simp [h1])
      · exact Or.inr (by simp [h1])
    · rw [if_neg hle] at h
      rcases ih acc r h with h1 | h1
      · exact Or.inl h1
      · exact Or.inr (by simp [h1])

theorem maxByVal_mem {A B : Type} [LinearOrder B] (f : A → B) (l : List A) (r : A)
    (h : maxByVal f l = some r) : r ∈ l := by
  cases l with
  | nil => simp [maxByVal] at h
  | cons x t =>
    simp only [maxByVal, List.foldl_cons] at h
    rcases maxByVal_go_mem f t x r h with h1 | h1
    · simp [h1]
    · simp [h1]

theorem maxByVal_go_le {A B : Type} [LinearOrder B] (f : A → B) :
    ∀ (l : List A) (acc : A) (r : A),
      l.foldl (fun acc x =>
        match acc with
        | none => some x
        | some y => if f y ≤ f x then some x else some y) (some acc) = some r →
      f acc ≤ f r ∧ ∀ x ∈ l, f x ≤ f r := by
  intro l
  induction l with
  | nil =>
    intro acc r h; simp at h; subst h; exact ⟨le_refl _, by simp⟩
  | cons x t ih =>
    intro acc r h
    simp only [List.foldl_cons] at h
    by_cases hle : f acc ≤ f x
    · rw [if_pos hle] at h
      obtain ⟨h1, h2⟩ := ih x r h
      exact ⟨le_trans hle h1, by
        intro z hz
        rcases List.mem_cons.mp hz with hz | hz
        · exact hz ▸ h1
        · exact h2 z hz⟩
    · rw [if_neg hle] at h
      obtain ⟨h1, h2⟩ := ih acc r h
      push_neg at hle
      exact ⟨h1, by
        intro z hz
        rcases List.mem_cons.mp hz with hz | hz
        · exact hz ▸ le_trans (le_of_lt hle) h1
        · exact h2 z hz⟩

theorem maxByVal_le {A B : Type} [LinearOrder B] (f : A → B) (l : List A) (r : A)
    (h : maxByVal f l = some r) : ∀ x ∈ l, f x ≤ f r := by
  cases l with
  | nil => simp
  | cons x t =>
    simp only [maxByVal, List.foldl_cons] at h
    obtain ⟨h1, h2⟩ := maxByVal_go_le f t x r h
    intro z hz
    rcases List.mem_cons.mp hz with hz | hz
    · exact hz ▸ h1
    · exact h2 z hz

theorem maxByVal_go_isSome {A B : Type} [LinearOrder B] (f : A → B) :
    ∀ (l : List A) (acc : A),
      ∃ r, l.foldl (fun acc x =>
        match acc with
        | none => some x
        | some y => if f y ≤ f x then some x else some y) (some acc) = some r := by
  intro l
  induction l with
  | nil => intro acc; exact ⟨acc, rfl⟩
  | cons x t ih =>
    intro acc
    simp only [List.foldl_cons]
    by_cases hle : f acc ≤ f x
    · rw [if_pos hle]; exact ih x
    · rw [if_neg hle]; exact ih acc

theorem maxByVal_ne_nil {A B : Type} [LinearOrder B] (f : A → B) (l : List A)
    (h : l ≠ []) : ∃ r, maxByVal f l = some r := by
  cases l with
  | nil => exact absurd rfl h
  | cons x t =>
    simp only [maxByVal, List.foldl_cons]
    exact maxByVal_go_isSome f t x

theorem maxByVal_nil {A B : Type} [LinearOrder B] (f : A → B) :
    maxByVal f ([] : List A) = none := rfl

/-! ### `MaybeSeededRng`, from `src/policies/rng.rs`

The `SmallRng` internals are abstracted to a single `state : Nat`; the only
facts the claims need are that the state is reconstructed from the seed on
deserialization (or from OS entropy when the seed is absent) and that it is
skipped by serialization. -/

/-- Model of `SmallRng::seed_from_u64`, abstracted: the freshly seeded generator
state as a function of the seed. -/
def seedFromU64 (s : Nat) : Nat := s

/-- Model of `MaybeSeededRng`: the optional seed plus the (non-serialized) generator
state. -/
structure MaybeSeededRng where
  seed : Option Nat
  state : Nat
deriving DecidableEq, Repr

/-- Model of `MaybeSeededRng::new`: seed the RNG from the seed when present,
otherwise from OS entropy (externalized as the `entropy` argument). -/
def rngNew (seed : Option Nat) (entropy : Nat) : MaybeSeededRng :=
  { seed := seed
    state := match seed with
      | some s => seedFromU64 s
      | none => entropy }

/-! ### Epsilon-greedy, from `src/policies/epsilon_greedy.rs` -/

/-- Model of `EpsilonGreedyArm`: running mean `reward` (`f64` modelled as `ℚ`),
pull `count` (`u64` modelled as `ℕ`; the claims never exercise overflow),
and the `is_active` flag. -/
structure EpsilonGreedyArm where
  reward : ℚ
  count : Nat
  is_active : Bool
deriving DecidableEq, Repr

/-- Model of `EpsilonGreedyArm::new`. -/
def egArmNew (initial_reward : ℚ) (initial_count : Nat) : EpsilonGreedyArm :=
  { reward := initial_reward, count := initial_count, is_active := true }

/-- Model of `EpsilonGreedyArm::reset`. -/
def egArmReset (a : EpsilonGreedyArm) (cumulative_reward : Option ℚ)
    (count : Option Nat) : EpsilonGreedyArm :=
  { a with reward := cumulative_reward.getD 0, count := count.getD 0 }

/-- Model of `EpsilonGreedyArm::update`: `count += 1; reward += (reward − mean)/count`.
Exact rational arithmetic stands for the `f64` operations. -/
def egArmUpdate (a : EpsilonGreedyArm) (reward : ℚ) : EpsilonGreedyArm :=
  { a with
    count := a.count + 1
    reward := a.reward + (reward - a.reward) / ((a.count : ℚ) + 1) }

/-- Model of `DecayType`, from `src/policies/epsilon_greedy.rs`. -/
inductive DecayType where
  | Exponential (decay : ℚ) : DecayType
  | Inverse (decay : ℚ) : DecayType
  | Linear (decay : ℚ) (min_epsilon : ℚ) : DecayType
deriving DecidableEq, Repr

/-- The `EpsilonGreedy` policy state. -/
structure EpsilonGreedy where
  arms : List (Nat × EpsilonGreedyArm)
  epsilon : ℚ
  epsilon_decay : Option DecayType
  rng : MaybeSeededRng
deriving DecidableEq, Repr

/-- Model of `EpsilonGreedy::new`. -/
def egNew (epsilon : ℚ) (epsilon_decay : Option DecayType) (seed : Option Nat)
    (entropy : Nat) : EpsilonGreedy :=
  { arms := [], epsilon := epsilon, epsilon_decay := epsilon_decay
    rng := rngNew seed entropy }

/-- Model of `EpsilonGreedy::add_arm`: the new handle is the current arm count
(`self.arms.len()`); the insertion overwrites any existing binding with
that key. -/
def egAddArm (s : EpsilonGreedy) (cumulative_reward : ℚ) (count : Nat) :
    EpsilonGreedy × Nat :=
  let arm_id := s.arms.length
  ({ s with arms := alInsert arm_id (egArmNew cumulative_reward count) s.arms },
   arm_id)

/-- Model of `EpsilonGreedy::disable_arm`. -/
def egDisableArm (s : EpsilonGreedy) (arm_id : Nat) :
    Except PolicyError EpsilonGreedy :=
  match alGet arm_id s.arms with
  | none => .error (.ArmNotFound arm_id)
  | some _ =>
    .ok { s with arms := alUpdate arm_id (fun a => { a with is_active := false }) s.arms }

/-- Model of `EpsilonGreedy::enable_arm`. -/
def egEnableArm (s : EpsilonGreedy) (arm_id : Nat) :
    Except PolicyError EpsilonGreedy :=
  match alGet arm_id s.arms with
  | none => .error (.ArmNotFound arm_id)
  | some _ =>
    .ok { s with arms := alUpdate arm_id (fun a => { a with is_active := true }) s.arms }

/-- Model of `EpsilonGreedy::delete_arm`. -/
def egDeleteArm (s : EpsilonGreedy) (arm_id : Nat) :
    Except PolicyError EpsilonGreedy :=
  match alGet arm_id s.arms with
  | none => .error (.ArmNotFound arm_id)
  | some _ => .ok { s with arms := alRemove arm_id s.arms }

/-- Model of `EpsilonGreedy::reset`. -/
def egReset (s : EpsilonGreedy) (arm_id : Option Nat) (cumulative_reward : Option ℚ)
    (count : Option Nat) : Except PolicyError EpsilonGreedy :=
  match arm_id with
  | some a =>
    match alGet a s.arms with
    | none => .error (.ArmNotFound a)
    | some _ =>
      .ok { s with arms := alUpdate a (fun x => egArmReset x cumulative_reward count) s.arms }
  | none =>
    .ok { s with arms := s.arms.map (fun p => (p.1, egArmReset p.2 none none)) }

/-- The active arms, in iteration order (`filter(|(_, arm)| arm.is_active)`). -/
def egActiveArms (s : EpsilonGreedy) : List (Nat × EpsilonGreedyArm) :=
  s.arms.filter (fun p => p.2.is_active)

/-- Model of `EpsilonGreedy::draw`.  The wall-clock timestamp is the `now` argument;
the `rng.random::<f64>() < epsilon` comparison is the `explore` argument;
the uniform choice of the exploration branch is the index `k`.  In the
exploitation branch `EpsilonGreedyArm::sample` always returns the running
mean, and `max_by` keeps the later element on ties. -/
def egDraw (s : EpsilonGreedy) (now : ℚ) (explore : Bool) (k : Nat) :
    Except PolicyError (ℚ × Nat) :=
  if explore then
    match choose k ((egActiveArms s).map Prod.fst) with
    | none => .error .NoArmsAvailable
    | some arm_id => .ok (now, arm_id)
  else
    match maxByVal (fun p => p.2.reward) (egActiveArms s) with
    | none => .error .NoArmsAvailable
    | some p => .ok (now, p.1)

/-- Model of `EpsilonGreedy::update`: fails with `ArmNotFound` when the arm id is
absent, otherwise bumps the arm's running statistics (the timestamp is
ignored by this policy's arm update). -/
def egUpdate (s : EpsilonGreedy) (_timestamp : ℚ) (arm_id : Nat) (reward : ℚ) :
    Except PolicyError EpsilonGreedy :=
  match alGet arm_id s.arms with
  | none => .error (.ArmNotFound arm_id)
  | some _ => .ok { s with arms := alUpdate arm_id (fun a => egArmUpdate a reward) s.arms }

/-- One element of a batch update: `(timestamp, arm_id, reward)`. -/
abbrev BatchUpdateElement := ℚ × Nat × ℚ

/-- Model of `EpsilonGreedy::update_batch`: `try_for_each` over the elements.  The
state is mutated in place, so on the first failing element the partially
updated state is kept and the error is returned. -/
def egUpdateBatch (s : EpsilonGreedy) : List BatchUpdateElement →
    EpsilonGreedy × Option PolicyError
  | [] => (s, none)
  | (timestamp, arm_id, reward) :: rest =>
    match egUpdate s timestamp arm_id reward with
    | .ok s' => egUpdateBatch s' rest
    | .error e => (s, some e)

/-- Model of `ArmStats`, from `src/policies/policy.rs`. -/
structure ArmStats where
  pulls : Nat
  mean_reward : ℚ
  is_active : Bool
deriving DecidableEq, Repr

/-- Model of `EpsilonGreedyArm::stats`. -/
def egArmStats (a : EpsilonGreedyArm) : ArmStats :=
  { pulls := a.count, mean_reward := a.reward, is_active := a.is_active }

/-- Model of `EpsilonGreedy::stats`: per-arm statistics keyed by arm handle. -/
def egStats (s : EpsilonGreedy) : List (Nat × ArmStats) :=
  s.arms.map (fun p => (p.1, egArmStats p.2))

/-! ### The experiment actor's `UpdateBatch` handler,
from `src/actors/experiment.rs` -/

/-- The ascending-timestamp comparison used by the handler's
`sort_unstable_by(|a, b| a.0.total_cmp(&b.0))`.  `total_cmp` is a total
order on `f64` (NaN-safe); on the rational model it is the order of `ℚ`. -/
def tsLe (a b : BatchUpdateElement) : Prop := a.1 ≤ b.1

instance : DecidableRel tsLe := fun a b => inferInstanceAs (Decidable (a.1 ≤ b.1))

instance : IsTotal BatchUpdateElement tsLe := ⟨fun a b => le_total a.1 b.1⟩

instance : IsTrans BatchUpdateElement tsLe := ⟨fun _ _ _ h1 h2 => le_trans h1 h2⟩

/-- The handler's in-place ascending sort of the batch.  `sort_unstable_by`
produces some timestamp-sorted permutation; insertion sort is one such
permutation (tie order among equal timestamps is unspecified by the
source). -/
def sortByTimestamp (l : List BatchUpdateElement) : List BatchUpdateElement :=
  List.insertionSort tsLe l

/-- Model of `Handler<UpdateBatch> for Experiment`: sort the batch by ascending
timestamp, then hand it to the policy's `update_batch`. -/
def handleUpdateBatch (s : EpsilonGreedy) (updates : List BatchUpdateElement) :
    EpsilonGreedy × Option PolicyError :=
  egUpdateBatch s (sortByTimestamp updates)

/-! ### UCB, from `src/policies/ucb.rs`

Arm data is rational/natural (exact `f64`/`u64` bookkeeping); the score
computed by `UcbArm::sample` involves `ln` and therefore lives in `ℝ`,
which makes the draw noncomputable in Lean — the real-number comparisons
stand for the `f64` comparisons of the source. -/

/-- Model of `UcbArm`. -/
structure UcbArm where
  reward : ℚ
  count : Nat
  is_active : Bool
deriving DecidableEq, Repr

/-- Model of `UcbArm::new`. -/
def ucbArmNew (initial_reward : ℚ) (initial_count : Nat) : UcbArm :=
  { reward := initial_reward, count := initial_count, is_active := true }

/-- Model of `UcbArm::update` — identical running-mean update to epsilon-greedy's. -/
def ucbArmUpdate (a : UcbArm) (reward : ℚ) : UcbArm :=
  { a with
    count := a.count + 1
    reward := a.reward + (reward - a.reward) / ((a.count : ℚ) + 1) }

/-- The `Ucb` policy state. -/
structure Ucb where
  arms : List (Nat × UcbArm)
  alpha : ℚ
  rng : MaybeSeededRng
deriving DecidableEq, Repr

/-- Model of `Ucb::total_count`: total pulls over the active arms. -/
def ucbTotalCount (s : Ucb) : Nat :=
  ((s.arms.filter (fun p => p.2.is_active)).map (fun p => p.2.count)).sum

/-- The active arms of a UCB policy, in iteration order. -/
def ucbActiveArms (s : Ucb) : List (Nat × UcbArm) :=
  s.arms.filter (fun p => p.2.is_active)

/-- Model of `UcbArm::sample`:
`reward + (alpha * (total_count as f64).ln() / (2.0 * (count as f64)))`.
Note the source applies no square root to the exploration term. -/
noncomputable def ucbSample (alpha : ℚ) (total_count : Nat) (a : UcbArm) : ℝ :=
  (a.reward : ℝ) + (alpha : ℝ) * Real.log (total_count : ℝ) / (2 * (a.count : ℝ))

/-- The UCB score as the specification states it:
`reward(a) + √(α · ln(N) / (2 · count(a)))`.  Kept separate from
`ucbSample` (the definition translated from the source) so the two can be
compared. -/
noncomputable def specUcbScore (alpha : ℚ) (total_count : Nat) (a : UcbArm) : ℝ :=
  (a.reward : ℝ) + Real.sqrt ((alpha : ℝ) * Real.log (total_count : ℝ) / (2 * (a.count : ℝ)))

/-- Model of `Ucb::draw`: first `choose` a uniformly random active arm with zero
count (warm-up); when none exists, take the active arm maximizing
`UcbArm::sample` (later element wins ties, as `max_by` does). -/
noncomputable def ucbDraw (s : Ucb) (now : ℚ) (k : Nat) :
    Except PolicyError (ℚ × Nat) :=
  match choose k ((s.arms.filter (fun p => p.2.is_active && p.2.count == 0)).map Prod.fst) with
  | some arm_id => .ok (now, arm_id)
  | none =>
    match maxByVal (fun p => ucbSample s.alpha (ucbTotalCount s) p.2) (ucbActiveArms s) with
    | none => .error .NoArmsAvailable
    | some p => .ok (now, p.1)

/-- Model of `Ucb::update`. -/
def ucbUpdate (s : Ucb) (_timestamp : ℚ) (arm_id : Nat) (reward : ℚ) :
    Except PolicyError Ucb :=
  match alGet arm_id s.arms with
  | none => .error (.ArmNotFound arm_id)
  | some _ => .ok { s with arms := alUpdate arm_id (fun a => ucbArmUpdate a reward) s.arms }

/-- Model of `Ucb::update_batch`: same `try_for_each` shape as epsilon-greedy's. -/
def ucbUpdateBatch (s : Ucb) : List BatchUpdateElement → Ucb × Option PolicyError
  | [] => (s, none)
  | (timestamp, arm_id, reward) :: rest =>
    match ucbUpdate s timestamp arm_id reward with
    | .ok s' => ucbUpdateBatch s' rest
    | .error e => (s, some e)

/-! ### Thompson Sampling, from `src/policies/thomson_sampling.rs`

The Beta parameters and timestamps flow through `exp`, so they are
modelled in `ℝ`. -/

/-- Model of `EPS = 1e-6`, the lower clamp for the discounted Beta parameters. -/
noncomputable def EPS : ℝ := 1 / 1000000

/-- Model of `ThomsonSamplingArm`. -/
structure ThomsonSamplingArm where
  alpha : ℝ
  beta : ℝ
  count : Nat
  halflife_seconds : Option ℝ
  last_ts : ℝ
  is_active : Bool

/-- Model of `ThomsonSamplingArm::new`; `get_timestamp()` is the `now` argument. -/
noncomputable def tsArmNew (initial_reward : ℝ) (initial_count : Nat)
    (halflife_seconds : Option ℝ) (now : ℝ) : ThomsonSamplingArm :=
  { alpha := 1 + initial_reward
    beta := 1 + (initial_count : ℝ) - initial_reward
    count := initial_count
    halflife_seconds := halflife_seconds
    last_ts := now
    is_active := true }

/-- Model of `ThomsonSamplingArm::decay_weight`:
`exp(−Δt · ln 2 / halflife)` when a halflife is set, `1.0` otherwise. -/
noncomputable def decayWeight (a : ThomsonSamplingArm) (timestamp : ℝ) : ℝ :=
  match a.halflife_seconds with
  | some h => Real.exp (-(timestamp - a.last_ts) * Real.log 2 / h)
  | none => 1

/-- Model of `ThomsonSamplingArm::apply_discount`: multiply both Beta parameters by
the decay weight, clamp below at `EPS`, advance `last_ts`. -/
noncomputable def applyDiscount (a : ThomsonSamplingArm) (timestamp : ℝ) :
    ThomsonSamplingArm :=
  { a with
    alpha := max (a.alpha * decayWeight a timestamp) EPS
    beta := max (a.beta * decayWeight a timestamp) EPS
    last_ts := timestamp }

/-- Model of `ThomsonSamplingArm::update`: discount to the update timestamp, then
`α += r`, `β += 1 − r`, `count += 1`. -/
noncomputable def tsArmUpdate (a : ThomsonSamplingArm) (reward : ℝ) (timestamp : ℝ) :
    ThomsonSamplingArm :=
  let d := applyDiscount a timestamp
  { d with alpha := d.alpha + reward, beta := d.beta + (1 - reward), count := d.count + 1 }

/-- The `ThomsonSampling` policy state. -/
structure ThomsonSampling where
  halflife_seconds : Option ℝ
  arms : List (Nat × ThomsonSamplingArm)
  rng : MaybeSeededRng

/-- The active arms of a Thompson Sampling policy, in iteration order. -/
def tsActiveArms (s : ThomsonSampling) : List (Nat × ThomsonSamplingArm) :=
  s.arms.filter (fun p => p.2.is_active)

/-- The first phase of `ThomsonSampling::draw`: apply the discount to all
active arms in place. -/
noncomputable def tsDiscountAll (s : ThomsonSampling) (now : ℝ) : ThomsonSampling :=
  { s with arms := s.arms.map (fun p =>
      (p.1, if p.2.is_active then applyDiscount p.2 now else p.2)) }

/-- The second phase of `ThomsonSampling::draw`: sample each active arm's
Beta posterior.  `Beta::new(α, β)` fails unless both parameters are
positive; a failing arm is skipped (`filter_map`).  The Beta samples are
externalized as the valuation `sampleVal`. -/
noncomputable def tsCandidates (s : ThomsonSampling) (sampleVal : Nat → ℝ) :
    List (Nat × ℝ) :=
  (tsActiveArms s).filterMap (fun p =>
    if 0 < p.2.alpha ∧ 0 < p.2.beta then some (p.1, sampleVal p.1) else none)

/-- Model of `ThomsonSampling::draw`: discount every active arm to `now`, then take
the argmax of the per-arm Beta samples (`max_by`, later element wins
ties). -/
noncomputable def tsDraw (s : ThomsonSampling) (now : ℝ) (sampleVal : Nat → ℝ) :
    ThomsonSampling × Except PolicyError (ℝ × Nat) :=
  match maxByVal (fun q => q.2) (tsCandidates (tsDiscountAll s now) sampleVal) with
  | none => (tsDiscountAll s now, .error .NoArmsAvailable)
  | some q => (tsDiscountAll s now, .ok (now, q.1))

/-- Model of `ThomsonSampling::update`. -/
noncomputable def tsUpdate (s : ThomsonSampling) (timestamp : ℝ) (arm_id : Nat)
    (reward : ℝ) : ThomsonSampling × Except PolicyError Unit :=
  match alGet arm_id s.arms with
  | none => (s, .error (.ArmNotFound arm_id))
  | some _ =>
    ({ s with arms := alUpdate arm_id (fun a => tsArmUpdate a reward timestamp) s.arms },
     .ok ())

/-- Model of `ThomsonSampling::add_arm`; `get_timestamp()` inside
`ThomsonSamplingArm::new` is the `now` argument. -/
noncomputable def tsAddArm (s : ThomsonSampling) (initial_reward : ℝ)
    (initial_count : Nat) (now : ℝ) : ThomsonSampling × Nat :=
  let arm_id := s.arms.length
  let arm := tsArmNew initial_reward initial_count s.halflife_seconds now
  ({ s with arms := alInsert arm_id arm s.arms }, arm_id)

/-! ### Snapshot / serialization, from the `serde` derives

`#[derive(Serialize, Deserialize)]` on the policy structs serializes every
field.  The `rng : MaybeSeededRng` field is special: its `Serialize` is
derived (with `#[serde(skip)]` on the generator), so it is written as the
one-field struct — on the `serde_json` transport the state store uses,
the map `{"seed": …}` — while its `Deserialize` is written by hand
(`src/policies/rng.rs`) and reads a *bare* `Option<u64>` before rebuilding
the RNG via `MaybeSeededRng::new(seed)`.  The two wire shapes disagree, so
the rng field's value is modelled at the wire level (`Json`) and
deserialization is fallible.  The other fields' derives are inverse pairs
and are modelled by their Lean values.  `clone_box` is a
`#[derive(Clone)]` deep copy, i.e. the identity on the value. -/

/-- Model of `Clone::clone` for a policy value (deep copy). -/
def cloneSnapshot {A : Type} (p : A) : A := p

/-- Model of the `serde_json` value space, restricted to the shapes the
`rng` field can take on the wire: `null`, an unsigned integer, or a map. -/
inductive Json where
  | null : Json
  | num (n : Nat) : Json
  | obj (fields : List (String × Json)) : Json

/-- Model of a serde deserialization error (an invalid-type mismatch; the
message text is irrelevant to the claims). -/
inductive DeError where
  | invalidType : DeError
deriving DecidableEq, Repr

/-- Model of the derived serialization of an `Option<u64>` value:
`None` → `null`, `Some n` → the integer. -/
def optU64ToJson : Option Nat → Json
  | none => .null
  | some n => .num n

/-- Model of the derived `Serialize` for `MaybeSeededRng`:
`#[serde(skip)]` drops the generator, leaving the one-field struct, which
serializes as the map `{"seed": …}`. -/
def rngSerialize (r : MaybeSeededRng) : Json :=
  .obj [("seed", optU64ToJson r.seed)]

/-- Model of the manual `Deserialize for MaybeSeededRng`
(`src/policies/rng.rs` lines 27–35): read a *bare* `Option<u64>` from the
input and rebuild the RNG via `MaybeSeededRng::new(seed)` (fresh OS
entropy when the seed is absent).  A JSON map is not an optional integer,
so it is rejected with an invalid-type error — including the map the
derived `Serialize` itself produces. -/
def rngDeserialize (j : Json) (entropy : Nat) : Except DeError MaybeSeededRng :=
  match j with
  | .null => .ok (rngNew none entropy)
  | .num n => .ok (rngNew (some n) entropy)
  | .obj _ => .error .invalidType

/-- The serialized form of `EpsilonGreedy`: every field, with the rng
field carried in its wire shape. -/
structure EpsilonGreedySer where
  arms : List (Nat × EpsilonGreedyArm)
  epsilon : ℚ
  epsilon_decay : Option DecayType
  rng : Json

/-- Serialize an `EpsilonGreedy` policy (derived `Serialize`). -/
def egSerialize (s : EpsilonGreedy) : EpsilonGreedySer :=
  { arms := s.arms, epsilon := s.epsilon, epsilon_decay := s.epsilon_decay
    rng := rngSerialize s.rng }

/-- Deserialize an `EpsilonGreedy` policy (derived `Deserialize`): every
field is restored from the serialized form, with the rng field going
through the manual `Deserialize for MaybeSeededRng`; an error there fails
the whole policy. -/
def egDeserialize (ser : EpsilonGreedySer) (entropy : Nat) :
    Except DeError EpsilonGreedy :=
  (rngDeserialize ser.rng entropy).map (fun r =>
    { arms := ser.arms, epsilon := ser.epsilon, epsilon_decay := ser.epsilon_decay
      rng := r })

/-- The serialized form of `Ucb`. -/
structure UcbSer where
  arms : List (Nat × UcbArm)
  alpha : ℚ
  rng : Json

/-- Serialize a `Ucb` policy (derived `Serialize`). -/
def ucbSerialize (s : Ucb) : UcbSer :=
  { arms := s.arms, alpha := s.alpha, rng := rngSerialize s.rng }

/-- Deserialize a `Ucb` policy (derived `Deserialize`); the rng field goes
through the manual `Deserialize for MaybeSeededRng`. -/
def ucbDeserialize (ser : UcbSer) (entropy : Nat) : Except DeError Ucb :=
  (rngDeserialize ser.rng entropy).map (fun r =>
    { arms := ser.arms, alpha := ser.alpha, rng := r })

/-- The serialized form of `ThomsonSampling`. -/
structure ThomsonSamplingSer where
  halflife_seconds : Option ℝ
  arms : List (Nat × ThomsonSamplingArm)
  rng : Json

/-- Serialize a `ThomsonSampling` policy (derived `Serialize`). -/
def tsSerialize (s : ThomsonSampling) : ThomsonSamplingSer :=
  { halflife_seconds := s.halflife_seconds, arms := s.arms
    rng := rngSerialize s.rng }

/-- Deserialize a `ThomsonSampling` policy (derived `Deserialize`); the
rng field goes through the manual `Deserialize for MaybeSeededRng`. -/
def tsDeserialize (ser : ThomsonSamplingSer) (entropy : Nat) :
    Except DeError ThomsonSampling :=
  (rngDeserialize ser.rng entropy).map (fun r =>
    { halflife_seconds := ser.halflife_seconds, arms := ser.arms, rng := r })

/-- Model of `Ucb` per-arm statistics (`UcbArm::stats`). -/
def ucbArmStats (a : UcbArm) : ArmStats :=
  { pulls := a.count, mean_reward := a.reward, is_active := a.is_active }

/-- Model of `Ucb::stats`. -/
def ucbStats (s : Ucb) : List (Nat × ArmStats) :=
  s.arms.map (fun p => (p.1, ucbArmStats p.2))

/-- Model of `ThomsonSampling` per-arm statistics: mean reward is `α / (α + β)`
(`ThomsonSamplingArm::stats`), so the stats live in `ℝ`. -/
structure TsArmStats where
  pulls : Nat
  mean_reward : ℝ
  is_active : Bool

/-- Model of `ThomsonSamplingArm::stats`. -/
noncomputable def tsArmStats (a : ThomsonSamplingArm) : TsArmStats :=
  { pulls := a.count, mean_reward := a.alpha / (a.alpha + a.beta)
    is_active := a.is_active }

/-- Model of `ThomsonSampling::stats`. -/
noncomputable def tsStats (s : ThomsonSampling) : List (Nat × TsArmStats) :=
  s.arms.map (fun p => (p.1, tsArmStats p.2))

/-! ### Repository, from `src/repository.rs`

Experiment ids (`Uuid`) are modelled as naturals; the actor address and
the declarative policy descriptor held per entry are opaque to the claims
and modelled as naturals. -/

/-- One entry of the repository map (`RepositoryElement`). -/
structure RepositoryElement where
  address : Nat
  policy_type : Nat
deriving DecidableEq, Repr

/-- The repository state: the map `{experiment id → element}`. -/
structure Repository where
  experiments : List (Nat × RepositoryElement)
deriving DecidableEq, Repr

/-- Model of `Repository::get_experiment_address`: look up the experiment's actor
address, `ExperimentNotFound(id)` when the id is not registered. -/
def getExperimentAddress (repo : Repository) (experiment_id : Nat) :
    Except RepositoryError Nat :=
  match alGet experiment_id repo.experiments with
  | none => .error (.ExperimentNotFound experiment_id)
  | some e => .ok e.address

/-- Model of `Repository::send_to_experiment`: every command forwarder first
resolves the address and then delivers the message to it; the actor's
answer is abstracted as a function of the address. -/
def sendToExperiment {R : Type} (repo : Repository) (experiment_id : Nat)
    (deliver : Nat → R) : Except RepositoryError R :=
  (getExperimentAddress repo experiment_id).map deliver

/-- Model of `Repository::delete_experiment`: resolve the address (propagating
`ExperimentNotFound` when absent), fire `Delete` at the actor, remove the
entry from the map. -/
def deleteExperiment (repo : Repository) (experiment_id : Nat) :
    Repository × Except RepositoryError Unit :=
  match getExperimentAddress repo experiment_id with
  | .error e => (repo, .error e)
  | .ok _ =>
    ({ experiments := alRemove experiment_id repo.experiments }, .ok ())

/-! ### Operation sequences on an epsilon-greedy policy

The service-level operations a caller can address to one experiment whose
policy is epsilon-greedy.  `updateBatch` goes through the actor handler
(which sorts); `draw` leaves the arm map unchanged (it only consumes
randomness).  Errors leave the state as the source leaves it (unchanged,
except for the partially applied batches). -/

inductive EgOp where
  | addArm (cumulative_reward : ℚ) (count : Nat) : EgOp
  | deleteArm (arm_id : Nat) : EgOp
  | disableArm (arm_id : Nat) : EgOp
  | enableArm (arm_id : Nat) : EgOp
  | reset (arm_id : Option Nat) (cumulative_reward : Option ℚ) (count : Option Nat) : EgOp
  | update (timestamp : ℚ) (arm_id : Nat) (reward : ℚ) : EgOp
  | updateBatch (updates : List BatchUpdateElement) : EgOp
  | draw (now : ℚ) (explore : Bool) (k : Nat) : EgOp
deriving DecidableEq, Repr

/-- The state after one operation (results and errors discarded; on error
the state is what the source leaves in place). -/
def egApplyOp (s : EpsilonGreedy) : EgOp → EpsilonGreedy
  | .addArm r n => (egAddArm s r n).1
  | .deleteArm a => match egDeleteArm s a with | .ok s' => s' | .error _ => s
  | .disableArm a => match egDisableArm s a with | .ok s' => s' | .error _ => s
  | .enableArm a => match egEnableArm s a with | .ok s' => s' | .error _ => s
  | .reset a r n => match egReset s a r n with | .ok s' => s' | .error _ => s
  | .update t a r => match egUpdate s t a r with | .ok s' => s' | .error _ => s
  | .updateBatch l => (handleUpdateBatch s l).1
  | .draw _ _ _ => s

/-- The state after a sequence of operations. -/
def egRun (s : EpsilonGreedy) : List EgOp → EpsilonGreedy
  | [] => s
  | op :: rest => egRun (egApplyOp s op) rest

/-- Number of batch elements applied to arm `a` by `update_batch` on the
(already sorted) element list: the fold stops counting at the first
failing element, exactly where `try_for_each` stops applying. -/
def egBatchPulls (s : EpsilonGreedy) (a : Nat) : List BatchUpdateElement → Nat
  | [] => 0
  | (timestamp, arm_id, reward) :: rest =>
    match egUpdate s timestamp arm_id reward with
    | .ok s' => (if arm_id = a then 1 else 0) + egBatchPulls s' a rest
    | .error _ => 0

/-- Number of successful `update` calls targeting arm `a` performed by one
operation. -/
def egOpPulls (s : EpsilonGreedy) (a : Nat) : EgOp → Nat
  | .update t b r =>
    match egUpdate s t b r with
    | .ok _ => if b = a then 1 else 0
    | .error _ => 0
  | .updateBatch l => egBatchPulls s a (sortByTimestamp l)
  | _ => 0

/-- Number of successful `update` calls targeting arm `a` over a whole
operation sequence. -/
def egRunPulls (s : EpsilonGreedy) (a : Nat) : List EgOp → Nat
  | [] => 0
  | op :: rest => egOpPulls s a op + egRunPulls (egApplyOp s op) a rest

/-- Model of `armSafe s a ops = true` when no operation of `ops` re-baselines arm
`a`: no reset targeting `a` (or all arms), no deletion of `a`, and no
`add_arm` whose freshly assigned handle (`arms.len()` at that point) would
collide with `a` and overwrite it. -/
def armSafe (s : EpsilonGreedy) (a : Nat) : List EgOp → Bool
  | [] => true
  | op :: rest =>
    (match op with
     | .addArm _ _ => decide (s.arms.length ≠ a)
     | .deleteArm b => decide (b ≠ a)
     | .reset none _ _ => false
     | .reset (some b) _ _ => decide (b ≠ a)
     | _ => true) && armSafe (egApplyOp s op) a rest

/-- Model of `keepsDisabled s a op = true` when the operation cannot re-activate a
disabled arm `a`: it is not `enable_arm(a)` and not an `add_arm` whose
assigned handle collides with `a` (such an `add_arm` overwrites the
disabled arm with a fresh active arm). -/
def keepsDisabled (s : EpsilonGreedy) (a : Nat) : EgOp → Bool
  | .enableArm b => decide (b ≠ a)
  | .addArm _ _ => decide (s.arms.length ≠ a)
  | _ => true

/-- List version of `keepsDisabled` along a trajectory. -/
def keepsDisabledRun (s : EpsilonGreedy) (a : Nat) : List EgOp → Bool
  | [] => true
  | op :: rest => keepsDisabled s a op && keepsDisabledRun (egApplyOp s op) a rest

/-! ### Helper lemmas shared between the claims -/

theorem alGet_insert_ne {A : Type} (k j : Nat) (v : A) (l : List (Nat × A))
    (h : k ≠ j) : alGet j (alInsert k v l) = alGet j l := by
  induction l with
  | nil => simp [alInsert, alGet, h]
  | cons p t ih =>
    obtain ⟨k', a⟩ := p
    by_cases hk : k' = k
    · subst hk
      simp [alInsert, alGet, h]
    · by_cases hj : k' = j
      · subst hj
        simp [alInsert, alGet, hk]
      · simp [alInsert, alGet, hk, hj, ih]

theorem alGet_remove_ne {A : Type} (k j : Nat) (l : List (Nat × A))
    (h : k ≠ j) : alGet j (alRemove k l) = alGet j l := by
  induction l with
  | nil => rfl
  | cons p t ih =>
    obtain ⟨k', a⟩ := p
    by_cases hk : k' = k
    · subst hk
      have hdrop : alRemove k' ((k', a) :: t) = alRemove k' t := by
        simp [alRemove, List.filter_cons]
      rw [hdrop, ih]
      simp [alGet, h]
    · have hkeep : alRemove k ((k', a) :: t) = (k', a) :: alRemove k t := by
        simp [alRemove, List.filter_cons, hk]
      rw [hkeep]
      by_cases hj : k' = j
      · simp [alGet, hj]
      · simp [alGet, hj, ih]

theorem alGet_eq_of_mem_nodup {A : Type} (a : Nat) (x : A) (l : List (Nat × A))
    (hnd : (alKeys l).Nodup) (hmem : (a, x) ∈ l) : alGet a l = some x := by
  induction l with
  | nil => cases hmem
  | cons p t ih =>
    obtain ⟨k', y⟩ := p
    simp only [alKeys, List.map_cons, List.nodup_cons] at hnd
    rcases List.mem_cons.mp hmem with hm | hm
    · obtain ⟨h1, h2⟩ := Prod.mk.injEq .. ▸ hm
      injection hm with h1 h2
      subst h1; subst h2
      simp [alGet]
    · have hne : k' ≠ a := by
        intro he
        subst he
        exact hnd.1 (List.mem_map.mpr ⟨(k', x), hm, rfl⟩)
      simp [alGet, hne, ih hnd.2 hm]

theorem alGet_map_snd {A B : Type} (f : A → B) (a : Nat) (l : List (Nat × A)) :
    alGet a (l.map (fun p => (p.1, f p.2))) = (alGet a l).map f := by
  induction l with
  | nil => rfl
  | cons p t ih =>
    obtain ⟨k', y⟩ := p
    by_cases hk : k' = a
    · simp [alGet, hk]
    · simp [alGet, hk, ih]

theorem alKeys_update {A : Type} (k : Nat) (f : A → A) (l : List (Nat × A)) :
    alKeys (alUpdate k f l) = alKeys l := by
  induction l with
  | nil => rfl
  | cons p t ih =>
    obtain ⟨k', a⟩ := p
    by_cases hk : k' = k
    · simp [alUpdate, hk, alKeys]
    · simp [alUpdate, hk, alKeys] at ih ⊢
      exact ih

/-- Model of `egUpdate` succeeds exactly on present arms and touches only the
target's binding. -/
theorem egUpdate_ok (s : EpsilonGreedy) (t : ℚ) (b : Nat) (r : ℚ) (arm : EpsilonGreedyArm)
    (h : alGet b s.arms = some arm) :
    egUpdate s t b r = .ok { s with arms := alUpdate b (fun a => egArmUpdate a r) s.arms } := by
  simp [egUpdate, h]

theorem egUpdate_err (s : EpsilonGreedy) (t : ℚ) (b : Nat) (r : ℚ)
    (h : alGet b s.arms = none) :
    egUpdate s t b r = .error (.ArmNotFound b) := by
  simp [egUpdate, h]

/-- Discounting preserves the `is_active` flag. -/
theorem applyDiscount_is_active (a : ThomsonSamplingArm) (t : ℝ) :
    (applyDiscount a t).is_active = a.is_active := rfl

/-- Both Beta parameters of a discounted arm are at least `EPS`, hence
positive: `Beta::new` never fails on a freshly discounted arm. -/
theorem applyDiscount_alpha_pos (a : ThomsonSamplingArm) (t : ℝ) :
    0 < (applyDiscount a t).alpha ∧ 0 < (applyDiscount a t).beta := by
  have hEPS : (0 : ℝ) < EPS := by unfold EPS; norm_num
  constructor
  · exact lt_of_lt_of_le hEPS (le_max_right _ _)
  · exact lt_of_lt_of_le hEPS (le_max_right _ _)

/-- The active arms after the draw's discount phase are exactly the
discounted versions of the previously active arms, keys unchanged. -/
theorem tsActiveArms_discountAll (s : ThomsonSampling) (now : ℝ) :
    tsActiveArms (tsDiscountAll s now) =
      (tsActiveArms s).map (fun p => (p.1, applyDiscount p.2 now)) := by
  unfold tsActiveArms tsDiscountAll
  induction s.arms with
  | nil => rfl
  | cons p t ih =>
    obtain ⟨k, arm⟩ := p
    by_cases ha : arm.is_active
    · simpa [List.filter_cons, ha, applyDiscount_is_active] using ih
    · simpa [List.filter_cons, ha, applyDiscount_is_active,
        Bool.not_eq_true] using ih

/-- After the discount phase every active arm survives the Beta-validity
filter, so the candidate list is just the sampled active arms. -/
theorem tsCandidates_discountAll (s : ThomsonSampling) (now : ℝ) (sv : Nat → ℝ) :
    tsCandidates (tsDiscountAll s now) sv =
      (tsActiveArms s).map (fun p => (p.1, sv p.1)) := by
  unfold tsCandidates
  rw [tsActiveArms_discountAll]
  induction tsActiveArms s with
  | nil => rfl
  | cons p t ih =>
    obtain ⟨k, arm⟩ := p
    have hpos := applyDiscount_alpha_pos arm now
    simp only [List.map_cons, List.filterMap_cons, if_pos hpos]
    rw [ih]

theorem egUpdate_lookup (s s' : EpsilonGreedy) (t : ℚ) (b : Nat) (r : ℚ) (a : Nat)
    (arm : EpsilonGreedyArm) (h : alGet a s.arms = some arm)
    (hok : egUpdate s t b r = .ok s') :
    alGet a s'.arms = some (if b = a then egArmUpdate arm r else arm) := by
  unfold egUpdate at hok
  cases hget : alGet b s.arms with
  | none => rw [hget] at hok; cases hok
  | some armb =>
    rw [hget] at hok
    injection hok with hok
    subst hok
    by_cases hba : b = a
    · subst hba
      simp [alGet_update_eq, h]
    · have hne : a ≠ b := fun he => hba he.symm
      simp [alGet_update_ne b a _ _ hne, h, hba]

theorem egDraw_of_empty (e : EpsilonGreedy) (now : ℚ) (explore : Bool) (k : Nat)
    (h : egActiveArms e = []) : egDraw e now explore k = .error .NoArmsAvailable := by
  unfold egDraw
  cases explore <;> simp [h, choose_nil, maxByVal_nil]

theorem egDraw_of_ne_empty (e : EpsilonGreedy) (now : ℚ) (explore : Bool) (k : Nat)
    (h : egActiveArms e ≠ []) : ∃ x, egDraw e now explore k = .ok x := by
  unfold egDraw
  cases explore with
  | false =>
    obtain ⟨r, hr⟩ := maxByVal_ne_nil (fun p => p.2.reward) (egActiveArms e) h
    exact ⟨(now, r.1), by simp [hr]⟩
  | true =>
    have hm : (egActiveArms e).map Prod.fst ≠ [] := by
      simpa [List.map_eq_nil_iff] using h
    obtain ⟨a, ha, _⟩ := choose_isSome_of_ne_nil k _ hm
    exact ⟨(now, a), by simp [ha]⟩

theorem ucbDraw_of_empty (u : Ucb) (now : ℚ) (k : Nat)
    (h : ucbActiveArms u = []) : ucbDraw u now k = .error .NoArmsAvailable := by
  have hwarm : u.arms.filter (fun p => p.2.is_active && p.2.count == 0) = [] := by
    rw [List.filter_eq_nil_iff]
    intro p hp
    have hact := List.filter_eq_nil_iff.mp h p hp
    simp only [Bool.and_eq_true, beq_iff_eq, not_and]
    intro hia
    exact absurd hia hact
  unfold ucbDraw
  simp [hwarm, choose_nil, h, maxByVal_nil]

theorem ucbDraw_of_ne_empty (u : Ucb) (now : ℚ) (k : Nat)
    (h : ucbActiveArms u ≠ []) : ∃ x, ucbDraw u now k = .ok x := by
  unfold ucbDraw
  cases hc : choose k ((u.arms.filter (fun p => p.2.is_active && p.2.count == 0)).map Prod.fst) with
  | some arm_id => exact ⟨(now, arm_id), by simp [hc]⟩
  | none =>
    obtain ⟨r, hr⟩ := maxByVal_ne_nil (fun p => ucbSample u.alpha (ucbTotalCount u) p.2)
      (ucbActiveArms u) h
    exact ⟨(now, r.1), by simp [hc, hr]⟩

theorem tsDraw_of_empty (s : ThomsonSampling) (now : ℝ) (sv : Nat → ℝ)
    (h : tsActiveArms s = []) : (tsDraw s now sv).2 = .error .NoArmsAvailable := by
  unfold tsDraw
  rw [tsCandidates_discountAll, h]
  simp [maxByVal_nil]

theorem tsDraw_of_ne_empty (s : ThomsonSampling) (now : ℝ) (sv : Nat → ℝ)
    (h : tsActiveArms s ≠ []) : ∃ x, (tsDraw s now sv).2 = .ok x := by
  unfold tsDraw
  rw [tsCandidates_discountAll]
  have hm : (tsActiveArms s).map (fun p => (p.1, sv p.1)) ≠ [] := by
    simpa [List.map_eq_nil_iff] using h
  obtain ⟨r, hr⟩ := maxByVal_ne_nil (fun q : Nat × ℝ => q.2) _ hm
  exact ⟨(now, r.1), by simp [hr]⟩

/-- C6: for each of the three policies, `draw()` fails with
`NoArmsAvailable` exactly when the policy has no active arm, and every
draw either succeeds or fails with precisely that error: a draw on a
policy with at least one active arm never returns `NoArmsAvailable`, and
a draw on a policy with no active arms always does. -/
theorem draw_noArmsAvailable_iff_no_active_arm
    (e : EpsilonGreedy) (u : Ucb) (s : ThomsonSampling) (now : ℚ) (tnow : ℝ)
    (sv : Nat → ℝ) (explore : Bool) (k : Nat) :
    (((∃ x, egDraw e now explore k = .ok x) ∨
        egDraw e now explore k = .error .NoArmsAvailable) ∧
      (egDraw e now explore k = .error .NoArmsAvailable ↔ egActiveArms e = [])) ∧
    (((∃ x, ucbDraw u now k = .ok x) ∨
        ucbDraw u now k = .error .NoArmsAvailable) ∧
      (ucbDraw u now k = .error .NoArmsAvailable ↔ ucbActiveArms u = [])) ∧
    (((∃ x, (tsDraw s tnow sv).2 = .ok x) ∨
        (tsDraw s tnow sv).2 = .error .NoArmsAvailable) ∧
      ((tsDraw s tnow sv).2 = .error .NoArmsAvailable ↔ tsActiveArms s = [])) := by
  refine ⟨⟨?_, ?_, ?_⟩, ⟨?_, ?_, ?_⟩, ⟨?_, ?_, ?_⟩⟩
  · by_cases h : egActiveArms e = []
    · exact Or.inr (egDraw_of_empty e now explore k h)
    · exact Or.inl (egDraw_of_ne_empty e now explore k h)
  · intro herr
    by_contra h
    obtain ⟨x, hx⟩ := egDraw_of_ne_empty e now explore k h
    rw [hx] at herr
    cases herr
  · exact egDraw_of_empty e now explore k
  · by_cases h : ucbActiveArms u = []
    · exact Or.inr (ucbDraw_of_empty u now k h)
    · exact Or.inl (ucbDraw_of_ne_empty u now k h)
  · intro herr
    by_contra h
    obtain ⟨x, hx⟩ := ucbDraw_of_ne_empty u now k h
    rw [hx] at herr
    cases herr
  · exact ucbDraw_of_empty u now k
  · by_cases h : tsActiveArms s = []
    · exact Or.inr (tsDraw_of_empty s tnow sv h)
    · exact Or.inl (tsDraw_of_ne_empty s tnow sv h)
  · intro herr
    by_contra h
    obtain ⟨x, hx⟩ := tsDraw_of_ne_empty s tnow sv h
    rw [hx] at herr
    cases herr
  · exact tsDraw_of_empty s tnow sv

/-- C1: a batch submitted through the service's `update_batch` operation is
handed to the policy as a permutation of the submitted elements that is
sorted in ascending timestamp order (the total order that `f64::total_cmp`
induces on timestamps), so the final policy state is the state obtained by
applying the elements in ascending timestamp order, not in submission
order. -/
theorem updateBatch_applies_in_ascending_timestamp_order
    (s : EpsilonGreedy) (updates : List BatchUpdateElement) :
    ∃ l, List.Perm updates l ∧ List.Sorted tsLe l ∧
      handleUpdateBatch s updates = egUpdateBatch s l := by
  refine ⟨sortByTimestamp updates, ?_, ?_, rfl⟩
  · exact (List.perm_insertionSort tsLe updates).symm
  · exact List.sorted_insertionSort tsLe updates

/-- C3 counterexample: start from an empty epsilon-greedy policy, add two
arms (handles 0 and 1), delete arm 0.  Arm 1 survives, yet the next
`add_arm` call assigns handle `arms.len() = 1` again: the newly assigned
handle equals the handle of a surviving, never-deleted arm (which the
insertion overwrites), contradicting the claim. -/
def egC3state : EpsilonGreedy :=
  egRun (egNew (1/10) none (some 1234) 0)
    [.addArm 0 0, .addArm 0 0, .deleteArm 0]

theorem addArm_reassigns_surviving_handle_after_delete :
    (egAddArm egC3state 0 0).2 = 1 ∧ alGet 1 egC3state.arms ≠ none := by
  decide

/-- C3 amended: every `add_arm` call returns a handle equal to the current
arm count, and as long as the arm handles are exactly `0, …, count−1`
(which holds for any add-only history, i.e. before any deletion), the new
handle is fresh and the handle set stays dense.  After deletions the next
handle may coincide with a surviving arm's handle and overwrite that arm
(see the counterexample). -/
theorem egAddArm_returns_len_and_keeps_dense
    (s : EpsilonGreedy) (r : ℚ) (n : Nat) :
    (egAddArm s r n).2 = s.arms.length ∧
    (alKeys s.arms = List.range s.arms.length →
      alKeys (egAddArm s r n).1.arms = List.range (s.arms.length + 1)) := by
  refine ⟨rfl, ?_⟩
  intro hkeys
  have hfresh : s.arms.length ∉ alKeys s.arms := by
    rw [hkeys]
    simp
  show alKeys (alInsert s.arms.length (egArmNew r n) s.arms) = _
  rw [alGet_insert_fresh _ _ _ hfresh, alKeys_append, hkeys, List.range_succ]
  rfl

def egC3witnessState : EpsilonGreedy :=
  egRun (egNew (1/10) none none 7) [.addArm 1 2, .addArm 0 0]

theorem egAddArm_returns_len_and_keeps_dense_witness :
    alKeys egC3witnessState.arms = List.range egC3witnessState.arms.length ∧
    alKeys (egAddArm egC3witnessState (1/2) 3).1.arms =
      List.range (egC3witnessState.arms.length + 1) :=
  ⟨by decide,
   (egAddArm_returns_len_and_keeps_dense egC3witnessState (1/2) 3).2 (by decide)⟩

/-- C7: the claim is the spec's clear intent — the manual
`Deserialize for MaybeSeededRng` exists precisely to reseed the RNG from
the stored seed — but the code cannot perform the round trip: the derived
`Serialize` writes the rng field as the map `{"seed": …}` while the
manual `Deserialize` reads a *bare* `Option<u64>`, so for every policy of
every kind, deserializing the serializer's own output fails with an
invalid-type error (first conjunct).  Had the rng field been written in
the bare optional-seed shape the deserializer expects, every other field
would round-trip losslessly, `stats()` would be preserved, and the RNG
would be reseeded from the seed (or OS entropy when the seed is absent) —
pinning the defect to the rng field's wire shape (remaining conjuncts). -/
theorem serialize_roundtrip_fails_on_rng_field
    (e : EpsilonGreedy) (u : Ucb) (s : ThomsonSampling) (entropy : Nat) :
    (egDeserialize (egSerialize (cloneSnapshot e)) entropy = .error .invalidType ∧
      ucbDeserialize (ucbSerialize (cloneSnapshot u)) entropy = .error .invalidType ∧
      tsDeserialize (tsSerialize (cloneSnapshot s)) entropy = .error .invalidType) ∧
    (egDeserialize { egSerialize e with rng := optU64ToJson e.rng.seed } entropy =
        .ok { e with rng := rngNew e.rng.seed entropy } ∧
      egStats { e with rng := rngNew e.rng.seed entropy } = egStats e) ∧
    (ucbDeserialize { ucbSerialize u with rng := optU64ToJson u.rng.seed } entropy =
        .ok { u with rng := rngNew u.rng.seed entropy } ∧
      ucbStats { u with rng := rngNew u.rng.seed entropy } = ucbStats u) ∧
    (tsDeserialize { tsSerialize s with rng := optU64ToJson s.rng.seed } entropy =
        .ok { s with rng := rngNew s.rng.seed entropy } ∧
      tsStats { s with rng := rngNew s.rng.seed entropy } = tsStats s) := by
  refine ⟨⟨rfl, rfl, rfl⟩, ⟨?_, rfl⟩, ⟨?_, rfl⟩, ⟨?_, rfl⟩⟩
  · cases h : e.rng.seed <;>
      simp [egDeserialize, egSerialize, rngDeserialize, optU64ToJson, rngNew, h,
        Except.map]
  · cases h : u.rng.seed <;>
      simp [ucbDeserialize, ucbSerialize, rngDeserialize, optU64ToJson, rngNew, h,
        Except.map]
  · cases h : s.rng.seed <;>
      simp [tsDeserialize, tsSerialize, rngDeserialize, optU64ToJson, rngNew, h,
        Except.map]

/-- C9: deleting a registered experiment succeeds and removes its entry
from the repository map; afterwards the id resolves to nothing, so a
second `delete_experiment` — like every repository command, all of which
resolve the id through `get_experiment_address` — fails with
`ExperimentNotFound` carrying that id. -/
theorem deleteExperiment_removes_and_missing_id_notFound
    {R : Type} (repo : Repository) (experiment_id : Nat) (deliver : Nat → R) :
    (alGet experiment_id repo.experiments ≠ none →
      (deleteExperiment repo experiment_id).2 = .ok () ∧
      alGet experiment_id (deleteExperiment repo experiment_id).1.experiments = none ∧
      (deleteExperiment (deleteExperiment repo experiment_id).1 experiment_id).2 =
        .error (.ExperimentNotFound experiment_id)) ∧
    (alGet experiment_id repo.experiments = none →
      sendToExperiment repo experiment_id deliver =
        .error (.ExperimentNotFound experiment_id) ∧
      (deleteExperiment repo experiment_id).2 =
        .error (.ExperimentNotFound experiment_id)) := by
  constructor
  · intro hpresent
    cases hget : alGet experiment_id repo.experiments with
    | none => exact absurd hget hpresent
    | some el =>
      have hdel : deleteExperiment repo experiment_id =
          ({ experiments := alRemove experiment_id repo.experiments }, .ok ()) := by
        simp [deleteExperiment, getExperimentAddress, hget]
      refine ⟨by rw [hdel], ?_, ?_⟩
      · rw [hdel]
        exact alGet_remove experiment_id repo.experiments
      · rw [hdel]
        simp [deleteExperiment, getExperimentAddress,
          alGet_remove experiment_id repo.experiments]
  · intro habsent
    constructor
    · simp [sendToExperiment, getExperimentAddress, habsent, Except.map]
    · simp [deleteExperiment, getExperimentAddress, habsent]

def repoC9 : Repository := { experiments := [(3, { address := 10, policy_type := 0 })] }

theorem deleteExperiment_removes_and_missing_id_notFound_witness :
    ((deleteExperiment repoC9 3).2 = .ok () ∧
      alGet 3 (deleteExperiment repoC9 3).1.experiments = none ∧
      (deleteExperiment (deleteExperiment repoC9 3).1 3).2 =
        .error (.ExperimentNotFound 3)) ∧
    (sendToExperiment repoC9 5 (fun a => a) = .error (.ExperimentNotFound 5) ∧
      (deleteExperiment repoC9 5).2 = .error (.ExperimentNotFound 5)) :=
  ⟨(deleteExperiment_removes_and_missing_id_notFound repoC9 3 (fun a => a)).1 (by decide),
   (deleteExperiment_removes_and_missing_id_notFound repoC9 5 (fun a => a)).2 (by decide)⟩

theorem alGet_update_none_iff {A : Type} (k j : Nat) (f : A → A) (l : List (Nat × A)) :
    alGet j (alUpdate k f l) = none ↔ alGet j l = none := by
  by_cases h : j = k
  · subst h
    rw [alGet_update_eq]
    cases alGet j l <;> simp
  · rw [alGet_update_ne k j f l h]

/-- C10: `update_batch` is not atomic.  The handler applies the
timestamp-sorted batch with `try_for_each`; writing the sorted batch as
`pre ++ e :: rest` where every element of `pre` targets a present arm and
`e` is the first element targeting a missing arm, the call returns
`ArmNotFound` for `e`'s arm, the final state is exactly the state after
applying `pre` (all of which succeeded and remain applied), and no element
from `e` onwards is applied. -/
theorem updateBatch_partial_application_on_missing_arm :
    (∀ (s : EpsilonGreedy) (b : List BatchUpdateElement),
      handleUpdateBatch s b = egUpdateBatch s (sortByTimestamp b)) ∧
    (∀ (pre : List BatchUpdateElement) (s : EpsilonGreedy)
        (e : BatchUpdateElement) (rest : List BatchUpdateElement),
      (∀ x ∈ pre, alGet x.2.1 s.arms ≠ none) →
      alGet e.2.1 s.arms = none →
      (egUpdateBatch s pre).2 = none ∧
      egUpdateBatch s (pre ++ e :: rest) =
        ((egUpdateBatch s pre).1, some (.ArmNotFound e.2.1))) := by
  refine ⟨fun _ _ => rfl, ?_⟩
  intro pre
  induction pre with
  | nil =>
    intro s e rest _ habsent
    obtain ⟨t, b, r⟩ := e
    refine ⟨rfl, ?_⟩
    simp only [List.nil_append, egUpdateBatch]
    rw [egUpdate_err s t b r habsent]
  | cons x pre' ih =>
    intro s e rest hpre habsent
    obtain ⟨t, b, r⟩ := x
    have hx : alGet b s.arms ≠ none := by
      simpa using hpre (t, b, r) (List.mem_cons_self _ _)
    cases hget : alGet b s.arms with
    | none => exact absurd hget hx
    | some arm =>
      have hok := egUpdate_ok s t b r arm hget
      set s' : EpsilonGreedy :=
        { s with arms := alUpdate b (fun a => egArmUpdate a r) s.arms } with hs'
      have hpres : ∀ j, alGet j s'.arms = none ↔ alGet j s.arms = none := by
        intro j
        simpa [hs'] using alGet_update_none_iff b j (fun a => egArmUpdate a r) s.arms
      have hpre' : ∀ y ∈ pre', alGet y.2.1 s'.arms ≠ none := by
        intro y hy hnone
        exact hpre y (List.mem_cons_of_mem _ hy) ((hpres y.2.1).mp hnone)
      have habsent' : alGet e.2.1 s'.arms = none := (hpres e.2.1).mpr habsent
      obtain ⟨h1, h2⟩ := ih s' e rest hpre' habsent'
      constructor
      · simpa [egUpdateBatch, hok] using h1
      · simpa [egUpdateBatch, hok] using h2

def egC10state : EpsilonGreedy := (egAddArm (egNew (1/10) none none 0) 0 0).1

theorem updateBatch_partial_application_on_missing_arm_witness :
    ((∀ x ∈ ([((1 : ℚ), 0, (1 : ℚ))] : List BatchUpdateElement),
        alGet x.2.1 egC10state.arms ≠ none) ∧
      alGet (((2 : ℚ), 5, (1 : ℚ)) : BatchUpdateElement).2.1 egC10state.arms = none) ∧
    ((egUpdateBatch egC10state [((1 : ℚ), 0, (1 : ℚ))]).2 = none ∧
      egUpdateBatch egC10state
          ([((1 : ℚ), 0, (1 : ℚ))] ++ ((2 : ℚ), 5, (1 : ℚ)) :: [((3 : ℚ), 0, (1 : ℚ))]) =
        ((egUpdateBatch egC10state [((1 : ℚ), 0, (1 : ℚ))]).1, some (.ArmNotFound 5))) :=
  ⟨⟨by decide, by decide⟩,
   updateBatch_partial_application_on_missing_arm.2
     [((1 : ℚ), 0, (1 : ℚ))] egC10state ((2 : ℚ), 5, (1 : ℚ))
     [((3 : ℚ), 0, (1 : ℚ))] (by decide) (by decide)⟩

theorem egUpdateBatch_count (a : Nat) :
    ∀ (l : List BatchUpdateElement) (s : EpsilonGreedy) (arm0 : EpsilonGreedyArm),
      alGet a s.arms = some arm0 →
      ∃ arm1, alGet a (egUpdateBatch s l).1.arms = some arm1 ∧
        arm1.count = arm0.count + egBatchPulls s a l := by
  intro l
  induction l with
  | nil =>
    intro s arm0 h
    exact ⟨arm0, h, by simp [egBatchPulls]⟩
  | cons x rest ih =>
    intro s arm0 h
    obtain ⟨t, b, r⟩ := x
    cases hup : egUpdate s t b r with
    | error e =>
      refine ⟨arm0, ?_, ?_⟩
      · simpa [egUpdateBatch, hup] using h
      · simp [egBatchPulls, hup]
    | ok s' =>
      have hlook := egUpdate_lookup s s' t b r a arm0 h hup
      obtain ⟨arm1, h1, h2⟩ := ih s' (if b = a then egArmUpdate arm0 r else arm0) hlook
      refine ⟨arm1, by simpa [egUpdateBatch, hup] using h1, ?_⟩
      rw [h2]
      by_cases hba : b = a
      · subst hba
        simp [egBatchPulls, hup, egArmUpdate]
        omega
      · simp [egBatchPulls, hup, hba]

theorem egApplyOp_count (op : EgOp) (s : EpsilonGreedy) (a : Nat)
    (arm0 : EpsilonGreedyArm) (h : alGet a s.arms = some arm0)
    (hsafe : (match op with
      | .addArm _ _ => decide (s.arms.length ≠ a)
      | .deleteArm b => decide (b ≠ a)
      | .reset none _ _ => false
      | .reset (some b) _ _ => decide (b ≠ a)
      | _ => true) = true) :
    ∃ arm1, alGet a (egApplyOp s op).arms = some arm1 ∧
      arm1.count = arm0.count + egOpPulls s a op := by
  cases op with
  | addArm r n =>
    have hne : s.arms.length ≠ a := by simpa using hsafe
    refine ⟨arm0, ?_, by simp [egOpPulls]⟩
    show alGet a (alInsert s.arms.length (egArmNew r n) s.arms) = some arm0
    rw [alGet_insert_ne _ _ _ _ hne, h]
  | deleteArm b =>
    have hne : b ≠ a := by simpa using hsafe
    refine ⟨arm0, ?_, by simp [egOpPulls]⟩
    cases hget : alGet b s.arms with
    | none =>
      have happ : egApplyOp s (.deleteArm b) = s := by
        simp [egApplyOp, egDeleteArm, hget]
      rw [happ, h]
    | some armb =>
      have happ : (egApplyOp s (.deleteArm b)).arms = alRemove b s.arms := by
        simp [egApplyOp, egDeleteArm, hget]
      rw [happ, alGet_remove_ne b a _ hne, h]
  | disableArm b =>
    cases hget : alGet b s.arms with
    | none =>
      have happ : egApplyOp s (.disableArm b) = s := by
        simp [egApplyOp, egDisableArm, hget]
      exact ⟨arm0, by rw [happ, h], by simp [egOpPulls]⟩
    | some armb =>
      have happ : (egApplyOp s (.disableArm b)).arms =
          alUpdate b (fun x => { x with is_active := false }) s.arms := by
        simp [egApplyOp, egDisableArm, hget]
      by_cases hba : b = a
      · subst hba
        refine ⟨{ arm0 with is_active := false }, ?_, by simp [egOpPulls]⟩
        rw [happ, alGet_update_eq, h]
        rfl
      · have hne : a ≠ b := fun he => hba he.symm
        refine ⟨arm0, ?_, by simp [egOpPulls]⟩
        rw [happ, alGet_update_ne b a _ _ hne, h]
  | enableArm b =>
    cases hget : alGet b s.arms with
    | none =>
      have happ : egApplyOp s (.enableArm b) = s := by
        simp [egApplyOp, egEnableArm, hget]
      exact ⟨arm0, by rw [happ, h], by simp [egOpPulls]⟩
    | some armb =>
      have happ : (egApplyOp s (.enableArm b)).arms =
          alUpdate b (fun x => { x with is_active := true }) s.arms := by
        simp [egApplyOp, egEnableArm, hget]
      by_cases hba : b = a
      · subst hba
        refine ⟨{ arm0 with is_active := true }, ?_, by simp [egOpPulls]⟩
        rw [happ, alGet_update_eq, h]
        rfl
      · have hne : a ≠ b := fun he => hba he.symm
        refine ⟨arm0, ?_, by simp [egOpPulls]⟩
        rw [happ, alGet_update_ne b a _ _ hne, h]
  | reset oa orw ocnt =>
    cases oa with
    | none => simp at hsafe
    | some b =>
      have hne : b ≠ a := by simpa using hsafe
      have hne' : a ≠ b := fun he => hne he.symm
      cases hget : alGet b s.arms with
      | none =>
        have happ : egApplyOp s (.reset (some b) orw ocnt) = s := by
          simp [egApplyOp, egReset, hget]
        exact ⟨arm0, by rw [happ, h], by simp [egOpPulls]⟩
      | some armb =>
        have happ : (egApplyOp s (.reset (some b) orw ocnt)).arms =
            alUpdate b (fun x => egArmReset x orw ocnt) s.arms := by
          simp [egApplyOp, egReset, hget]
        refine ⟨arm0, ?_, by simp [egOpPulls]⟩
        rw [happ, alGet_update_ne b a _ _ hne', h]
  | update t b r =>
    cases hup : egUpdate s t b r with
    | error e =>
      have happ : egApplyOp s (.update t b r) = s := by
        simp [egApplyOp, hup]
      exact ⟨arm0, by rw [happ, h], by simp [egOpPulls, hup]⟩
    | ok s' =>
      have happ : egApplyOp s (.update t b r) = s' := by
        simp [egApplyOp, hup]
      have hlook := egUpdate_lookup s s' t b r a arm0 h hup
      by_cases hba : b = a
      · subst hba
        exact ⟨egArmUpdate arm0 r, by rw [happ]; simpa using hlook,
          by simp [egOpPulls, hup, egArmUpdate]⟩
      · exact ⟨arm0, by rw [happ]; simpa [hba] using hlook,
          by simp [egOpPulls, hup, hba]⟩
  | updateBatch l =>
    obtain ⟨arm1, h1, h2⟩ :=
      egUpdateBatch_count a (sortByTimestamp l) s arm0 h
    exact ⟨arm1, h1, by simpa [egOpPulls] using h2⟩
  | draw now explore k =>
    exact ⟨arm0, by simpa [egApplyOp] using h, by simp [egOpPulls]⟩

/-- C4 amended: starting from any state in which arm `a` is present with
count `c` (the baseline established by `add_arm`'s `initial_count` or by
the count supplied to the last `reset`, default 0), after any sequence of
operations that does not re-baseline `a` (no reset of `a` or of all arms,
no deletion of `a`, no `add_arm` whose handle collides with `a`),
`stats().arms[a].pulls` equals `c` plus the number of successful `update`
calls — batch elements included, counted up to each batch's first failing
element — that targeted `a` during the sequence. -/
theorem egStats_pulls_eq_baseline_plus_successful_updates :
    ∀ (ops : List EgOp) (s : EpsilonGreedy) (a : Nat) (arm0 : EpsilonGreedyArm),
      alGet a s.arms = some arm0 →
      armSafe s a ops = true →
      ∃ st, alGet a (egStats (egRun s ops)) = some st ∧
        st.pulls = arm0.count + egRunPulls s a ops := by
  intro ops
  induction ops with
  | nil =>
    intro s a arm0 h _
    refine ⟨egArmStats arm0, ?_, by simp [egArmStats, egRunPulls]⟩
    show alGet a (egStats s) = _
    unfold egStats
    rw [alGet_map_snd, h]
    rfl
  | cons op rest ih =>
    intro s a arm0 h hsafe
    unfold armSafe at hsafe
    rw [Bool.and_eq_true] at hsafe
    obtain ⟨arm1, h1, h2⟩ := egApplyOp_count op s a arm0 h hsafe.1
    obtain ⟨st, hst1, hst2⟩ := ih (egApplyOp s op) a arm1 h1 hsafe.2
    refine ⟨st, by simpa [egRun] using hst1, ?_⟩
    rw [hst2, h2]
    simp [egRunPulls]
    ring

/-- C4 counterexample: `add_arm(0.0, 5)` creates an arm whose `pulls`
statistic is already 5 although zero successful `update` calls have
targeted it since its creation. -/
def egC4state : EpsilonGreedy := (egAddArm (egNew (1/10) none none 0) 0 5).1

theorem stats_pulls_ne_update_count_after_initial_count :
    alGet 0 (egStats egC4state) = some { pulls := 5, mean_reward := 0, is_active := true } ∧
    egRunPulls egC4state 0 [] = 0 ∧ (5 : Nat) ≠ 0 := by
  decide

def egC4witnessState : EpsilonGreedy := (egAddArm (egNew (1/10) none none 0) 0 2).1

def egC4witnessOps : List EgOp :=
  [.update 1 0 1, .update 2 5 1, .updateBatch [(0, 0, 0), (1, 1, 9)]]

theorem egStats_pulls_eq_baseline_plus_successful_updates_witness :
    (alGet 0 egC4witnessState.arms = some (egArmNew 0 2) ∧
      armSafe egC4witnessState 0 egC4witnessOps = true) ∧
    ∃ st, alGet 0 (egStats (egRun egC4witnessState egC4witnessOps)) = some st ∧
      st.pulls = (egArmNew 0 2).count + egRunPulls egC4witnessState 0 egC4witnessOps :=
  ⟨⟨by decide, by decide⟩,
   egStats_pulls_eq_baseline_plus_successful_updates egC4witnessOps egC4witnessState 0
     (egArmNew 0 2) (by decide) (by decide)⟩

theorem choose_mem {A : Type} (k : Nat) (l : List A) (a : A)
    (h : choose k l = some a) : a ∈ l := by
  unfold choose at h
  exact List.get?_mem h

/-- Arm `a` is currently disabled (or has been deleted): it can never be
returned by a draw. -/
def egArmDisabledOrAbsent (s : EpsilonGreedy) (a : Nat) : Bool :=
  match alGet a s.arms with
  | none => true
  | some arm => !arm.is_active

def ucbArmDisabledOrAbsent (s : Ucb) (a : Nat) : Bool :=
  match alGet a s.arms with
  | none => true
  | some arm => !arm.is_active

noncomputable def tsArmDisabledOrAbsent (s : ThomsonSampling) (a : Nat) : Bool :=
  match alGet a s.arms with
  | none => true
  | some arm => !arm.is_active

/-- An arm that occurs actively in the arm list contradicts
`disabled-or-absent` (under unique keys). -/
theorem not_disabledOrAbsent_of_active_mem {A : Type} (get_active : A → Bool)
    (l : List (Nat × A)) (a : Nat) (arm : A)
    (hnd : (alKeys l).Nodup) (hmem : (a, arm) ∈ l) (hact : get_active arm = true)
    (hdis : ∀ x, alGet a l = some x → get_active x = false) : False := by
  have := hdis arm (alGet_eq_of_mem_nodup a arm l hnd hmem)
  rw [hact] at this
  cases this

theorem egDraw_not_disabled (e : EpsilonGreedy) (a : Nat) (now : ℚ)
    (explore : Bool) (k : Nat) (x : ℚ × Nat)
    (hnd : (alKeys e.arms).Nodup)
    (hdis : egArmDisabledOrAbsent e a = true)
    (hok : egDraw e now explore k = .ok x) : x.2 ≠ a := by
  intro hxa
  unfold egDraw at hok
  have hmem : ∃ arm, (a, arm) ∈ egActiveArms e := by
    cases explore with
    | true =>
      simp only [if_pos] at hok
      cases hc : choose k ((egActiveArms e).map Prod.fst) with
      | none => rw [hc] at hok; cases hok
      | some arm_id =>
        rw [hc] at hok
        injection hok with hok
        have hid : arm_id = a := by rw [← hxa, ← hok]
        obtain ⟨⟨i, arm⟩, hmem, hfst⟩ := List.mem_map.mp (choose_mem k _ _ hc)
        exact ⟨arm, by rwa [← hid, ← hfst]⟩
    | false =>
      simp only [Bool.false_eq_true, if_neg] at hok
      cases hm : maxByVal (fun p => p.2.reward) (egActiveArms e) with
      | none => rw [hm] at hok; cases hok
      | some p =>
        rw [hm] at hok
        injection hok with hok
        have hid : p.1 = a := by rw [← hxa, ← hok]
        exact ⟨p.2, by rw [← hid]; exact maxByVal_mem _ _ _ hm⟩
  obtain ⟨arm, hmem⟩ := hmem
  have hin := List.mem_filter.mp hmem
  have hdis' : ∀ x, alGet a e.arms = some x → x.is_active = false := by
    intro x hx
    unfold egArmDisabledOrAbsent at hdis
    rw [hx] at hdis
    simpa using hdis
  exact not_disabledOrAbsent_of_active_mem (fun x => x.is_active) e.arms a arm hnd
    hin.1 (by simpa using hin.2) hdis'

theorem ucbDraw_not_disabled (u : Ucb) (a : Nat) (now : ℚ) (k : Nat) (x : ℚ × Nat)
    (hnd : (alKeys u.arms).Nodup)
    (hdis : ucbArmDisabledOrAbsent u a = true)
    (hok : ucbDraw u now k = .ok x) : x.2 ≠ a := by
  intro hxa
  unfold ucbDraw at hok
  have hmem : ∃ arm, (a, arm) ∈ u.arms ∧ arm.is_active = true := by
    cases hc : choose k ((u.arms.filter (fun p => p.2.is_active && p.2.count == 0)).map Prod.fst) with
    | some arm_id =>
      rw [hc] at hok
      injection hok with hok
      have hid : arm_id = a := by rw [← hxa, ← hok]
      obtain ⟨⟨i, arm⟩, hmem, hfst⟩ := List.mem_map.mp (choose_mem k _ _ hc)
      have hin := List.mem_filter.mp hmem
      refine ⟨arm, ?_, ?_⟩
      · rw [← hid, ← hfst]
        exact hin.1
      · have := hin.2
        simp only [Bool.and_eq_true] at this
        exact this.1
    | none =>
      rw [hc] at hok
      cases hm : maxByVal (fun p => ucbSample u.alpha (ucbTotalCount u) p.2) (ucbActiveArms u) with
      | none => rw [hm] at hok; cases hok
      | some p =>
        rw [hm] at hok
        injection hok with hok
        have hid : p.1 = a := by rw [← hxa, ← hok]
        have hin := List.mem_filter.mp (maxByVal_mem _ _ _ hm)
        exact ⟨p.2, by rw [← hid]; exact hin.1, by simpa using hin.2⟩
  obtain ⟨arm, hmem, hact⟩ := hmem
  have hdis' : ∀ x, alGet a u.arms = some x → x.is_active = false := by
    intro x hx
    unfold ucbArmDisabledOrAbsent at hdis
    rw [hx] at hdis
    simpa using hdis
  exact not_disabledOrAbsent_of_active_mem (fun x => x.is_active) u.arms a arm hnd
    hmem hact hdis'

theorem tsDraw_not_disabled (s : ThomsonSampling) (a : Nat) (now : ℝ)
    (sv : Nat → ℝ) (x : ℝ × Nat)
    (hnd : (alKeys s.arms).Nodup)
    (hdis : tsArmDisabledOrAbsent s a = true)
    (hok : (tsDraw s now sv).2 = .ok x) : x.2 ≠ a := by
  intro hxa
  unfold tsDraw at hok
  rw [tsCandidates_discountAll] at hok
  cases hm : maxByVal (fun q : Nat × ℝ => q.2)
      ((tsActiveArms s).map (fun p => (p.1, sv p.1))) with
  | none => rw [hm] at hok; cases hok
  | some q =>
    rw [hm] at hok
    injection hok with hok
    have hid : q.1 = a := by rw [← hxa, ← hok]
    obtain ⟨⟨i, arm⟩, hmem, hq⟩ := List.mem_map.mp (maxByVal_mem _ _ _ hm)
    have hia : i = a := by rw [← hid, ← hq]
    subst hia
    have hin := List.mem_filter.mp hmem
    have hdis' : ∀ x, alGet i s.arms = some x → x.is_active = false := by
      intro x hx
      unfold tsArmDisabledOrAbsent at hdis
      rw [hx] at hdis
      simpa using hdis
    exact not_disabledOrAbsent_of_active_mem (fun x => x.is_active) s.arms i arm hnd
      hin.1 (by simpa using hin.2) hdis'

theorem egUpdate_disabled_preserved (s s' : EpsilonGreedy) (t : ℚ) (b : Nat) (r : ℚ)
    (a : Nat) (hdis : egArmDisabledOrAbsent s a = true)
    (hok : egUpdate s t b r = .ok s') : egArmDisabledOrAbsent s' a = true := by
  unfold egUpdate at hok
  cases hget : alGet b s.arms with
  | none => rw [hget] at hok; cases hok
  | some armb =>
    rw [hget] at hok
    injection hok with hok
    subst hok
    unfold egArmDisabledOrAbsent at hdis ⊢
    by_cases hba : b = a
    · subst hba
      rw [alGet_update_eq]
      cases hga : alGet b s.arms with
      | none => rfl
      | some arm =>
        rw [hga] at hdis
        simpa [egArmUpdate] using hdis
    · have hne : a ≠ b := fun he => hba he.symm
      rwa [alGet_update_ne b a _ _ hne]

theorem egUpdateBatch_disabled_preserved (a : Nat) :
    ∀ (l : List BatchUpdateElement) (s : EpsilonGreedy),
      egArmDisabledOrAbsent s a = true →
      egArmDisabledOrAbsent (egUpdateBatch s l).1 a = true := by
  intro l
  induction l with
  | nil => intro s h; exact h
  | cons x rest ih =>
    intro s h
    obtain ⟨t, b, r⟩ := x
    cases hup : egUpdate s t b r with
    | error e => simpa [egUpdateBatch, hup] using h
    | ok s' =>
      have h' := egUpdate_disabled_preserved s s' t b r a h hup
      simpa [egUpdateBatch, hup] using ih s' h'

theorem egApplyOp_disabled_preserved (op : EgOp) (s : EpsilonGreedy) (a : Nat)
    (hdis : egArmDisabledOrAbsent s a = true)
    (hsafe : keepsDisabled s a op = true) :
    egArmDisabledOrAbsent (egApplyOp s op) a = true := by
  cases op with
  | addArm r n =>
    have hne : s.arms.length ≠ a := by simpa [keepsDisabled] using hsafe
    unfold egArmDisabledOrAbsent at hdis ⊢
    show (match alGet a (alInsert s.arms.length (egArmNew r n) s.arms) with
      | none => true
      | some arm => !arm.is_active) = true
    rwa [alGet_insert_ne _ _ _ _ hne]
  | deleteArm b =>
    cases hget : alGet b s.arms with
    | none => simpa [egApplyOp, egDeleteArm, hget] using hdis
    | some armb =>
      have happ : (egApplyOp s (.deleteArm b)).arms = alRemove b s.arms := by
        simp [egApplyOp, egDeleteArm, hget]
      unfold egArmDisabledOrAbsent at hdis ⊢
      rw [happ]
      by_cases hba : b = a
      · subst hba
        rw [alGet_remove]
      · rwa [alGet_remove_ne b a _ hba]
  | disableArm b =>
    cases hget : alGet b s.arms with
    | none => simpa [egApplyOp, egDisableArm, hget] using hdis
    | some armb =>
      have happ : (egApplyOp s (.disableArm b)).arms =
          alUpdate b (fun x => { x with is_active := false }) s.arms := by
        simp [egApplyOp, egDisableArm, hget]
      unfold egArmDisabledOrAbsent at hdis ⊢
      rw [happ]
      by_cases hba : b = a
      · subst hba
        rw [alGet_update_eq]
        cases alGet b s.arms <;> simp
      · have hne : a ≠ b := fun he => hba he.symm
        rwa [alGet_update_ne b a _ _ hne]
  | enableArm b =>
    have hne : b ≠ a := by simpa [keepsDisabled] using hsafe
    have hne' : a ≠ b := fun he => hne he.symm
    cases hget : alGet b s.arms with
    | none => simpa [egApplyOp, egEnableArm, hget] using hdis
    | some armb =>
      have happ : (egApplyOp s (.enableArm b)).arms =
          alUpdate b (fun x => { x with is_active := true }) s.arms := by
        simp [egApplyOp, egEnableArm, hget]
      unfold egArmDisabledOrAbsent at hdis ⊢
      rw [happ]
      rwa [alGet_update_ne b a _ _ hne']
  | reset oa orw ocnt =>
    cases oa with
    | none =>
      have happ : (egApplyOp s (.reset none orw ocnt)).arms =
          s.arms.map (fun p => (p.1, egArmReset p.2 none none)) := by
        simp [egApplyOp, egReset]
      unfold egArmDisabledOrAbsent at hdis ⊢
      have hmap : alGet a (s.arms.map (fun p => (p.1, egArmReset p.2 none none))) =
          (alGet a s.arms).map (fun x => egArmReset x none none) :=
        alGet_map_snd (fun x => egArmReset x none none) a s.arms
      rw [happ, hmap]
      cases hga : alGet a s.arms with
      | none => rfl
      | some arm =>
        rw [hga] at hdis
        simpa [egArmReset] using hdis
    | some b =>
      cases hget : alGet b s.arms with
      | none => simpa [egApplyOp, egReset, hget] using hdis
      | some armb =>
        have happ : (egApplyOp s (.reset (some b) orw ocnt)).arms =
            alUpdate b (fun x => egArmReset x orw ocnt) s.arms := by
          simp [egApplyOp, egReset, hget]
        unfold egArmDisabledOrAbsent at hdis ⊢
        rw [happ]
        by_cases hba : b = a
        · subst hba
          rw [alGet_update_eq]
          cases hga : alGet b s.arms with
          | none => rfl
          | some arm =>
            rw [hga] at hdis
            simpa [egArmReset] using hdis
        · have hne : a ≠ b := fun he => hba he.symm
          rwa [alGet_update_ne b a _ _ hne]
  | update t b r =>
    cases hup : egUpdate s t b r with
    | error e => simpa [egApplyOp, hup] using hdis
    | ok s' =>
      have happ : egApplyOp s (.update t b r) = s' := by simp [egApplyOp, hup]
      rw [happ]
      exact egUpdate_disabled_preserved s s' t b r a hdis hup
  | updateBatch l =>
    exact egUpdateBatch_disabled_preserved a (sortByTimestamp l) s hdis
  | draw now explore k => simpa [egApplyOp] using hdis

theorem egRun_disabled_preserved (a : Nat) :
    ∀ (ops : List EgOp) (s : EpsilonGreedy),
      egArmDisabledOrAbsent s a = true →
      keepsDisabledRun s a ops = true →
      egArmDisabledOrAbsent (egRun s ops) a = true := by
  intro ops
  induction ops with
  | nil => intro s h _; exact h
  | cons op rest ih =>
    intro s h hrun
    unfold keepsDisabledRun at hrun
    rw [Bool.and_eq_true] at hrun
    exact ih (egApplyOp s op)
      (egApplyOp_disabled_preserved op s a h hrun.1) hrun.2

/-- C8 counterexample: `disable_arm(1)` succeeds; the subsequent
operations `delete_arm(0); add_arm` contain no `enable_arm(1)`, yet the
`add_arm` reassigns handle 1 (the arm count has shrunk to 1) and
overwrites the disabled arm with a fresh active arm, after which a draw
returns arm 1 — contradicting "no draw() returns a until enable_arm(a)". -/
def egC8base : EpsilonGreedy :=
  egRun (egNew 0 none (some 1) 0) [.addArm 0 0, .addArm 0 0]

def egC8afterDisable : EpsilonGreedy := egApplyOp egC8base (.disableArm 1)

def egC8final : EpsilonGreedy := egRun egC8afterDisable [.deleteArm 0, .addArm 0 0]

theorem draw_returns_disabled_handle_after_handle_reuse :
    egDisableArm egC8base 1 = .ok egC8afterDisable ∧
    EgOp.enableArm 1 ∉ ([EgOp.deleteArm 0, EgOp.addArm 0 0] : List EgOp) ∧
    egDraw egC8final 0 false 0 = .ok (0, 1) := by
  decide

/-- C8 amended: after a successful `disable_arm(a)` the arm is excluded
from every policy's draw candidates (exploration and exploitation alike)
while remaining in the policy state, and it stays excluded until either
`enable_arm(a)` is called or — after deletions have shrunk the arm count
to `a` — an `add_arm` reassigns handle `a` and overwrites the disabled
arm with a fresh active one (see the counterexample).  Concretely:
`disable_arm(a)` leaves `a` disabled; every operation other than
`enable_arm(a)` and such a colliding `add_arm` preserves
disabled-or-deleted status; and no draw of any of the three policies
returns a disabled-or-deleted arm. -/
theorem disabled_arm_excluded_from_draws_until_enable_or_reuse :
    (∀ (e e' : EpsilonGreedy) (a : Nat), egDisableArm e a = .ok e' →
      egArmDisabledOrAbsent e' a = true) ∧
    (∀ (e : EpsilonGreedy) (a : Nat) (ops : List EgOp),
      egArmDisabledOrAbsent e a = true → keepsDisabledRun e a ops = true →
      egArmDisabledOrAbsent (egRun e ops) a = true) ∧
    (∀ (e : EpsilonGreedy) (a : Nat) (now : ℚ) (explore : Bool) (k : Nat) (x : ℚ × Nat),
      (alKeys e.arms).Nodup → egArmDisabledOrAbsent e a = true →
      egDraw e now explore k = .ok x → x.2 ≠ a) ∧
    (∀ (u : Ucb) (a : Nat) (now : ℚ) (k : Nat) (x : ℚ × Nat),
      (alKeys u.arms).Nodup → ucbArmDisabledOrAbsent u a = true →
      ucbDraw u now k = .ok x → x.2 ≠ a) ∧
    (∀ (s : ThomsonSampling) (a : Nat) (now : ℝ) (sv : Nat → ℝ) (x : ℝ × Nat),
      (alKeys s.arms).Nodup → tsArmDisabledOrAbsent s a = true →
      (tsDraw s now sv).2 = .ok x → x.2 ≠ a) := by
  refine ⟨?_, ?_, ?_, ?_, ?_⟩
  · intro e e' a hok
    unfold egDisableArm at hok
    cases hget : alGet a e.arms with
    | none => rw [hget] at hok; cases hok
    | some arm =>
      rw [hget] at hok
      injection hok with hok
      subst hok
      unfold egArmDisabledOrAbsent
      show (match alGet a (alUpdate a (fun x => { x with is_active := false }) e.arms) with
        | none => true
        | some arm => !arm.is_active) = true
      rw [alGet_update_eq, hget]
      rfl
  · intro e a ops h1 h2
    exact egRun_disabled_preserved a ops e h1 h2
  · intro e a now explore k x h1 h2 h3
    exact egDraw_not_disabled e a now explore k x h1 h2 h3
  · intro u a now k x h1 h2 h3
    exact ucbDraw_not_disabled u a now k x h1 h2 h3
  · intro s a now sv x h1 h2 h3
    exact tsDraw_not_disabled s a now sv x h1 h2 h3

def ucbC8w : Ucb :=
  { arms := [(0, { reward := 0, count := 1, is_active := true }),
             (1, { reward := 0, count := 1, is_active := false })]
    alpha := 1
    rng := { seed := none, state := 0 } }

def tsC8w : ThomsonSampling :=
  { halflife_seconds := none
    arms := [(0, { alpha := 1, beta := 1, count := 0, halflife_seconds := none,
                   last_ts := 0, is_active := true }),
             (1, { alpha := 1, beta := 1, count := 0, halflife_seconds := none,
                   last_ts := 0, is_active := false })]
    rng := { seed := none, state := 0 } }

theorem disabled_arm_excluded_from_draws_witness :
    (egDisableArm egC8base 1 = .ok egC8afterDisable ∧
      egArmDisabledOrAbsent egC8afterDisable 1 = true) ∧
    (keepsDisabledRun egC8afterDisable 1 [.update 1 0 1] = true ∧
      egArmDisabledOrAbsent (egRun egC8afterDisable [.update 1 0 1]) 1 = true) ∧
    ((alKeys egC8afterDisable.arms).Nodup ∧
      egDraw egC8afterDisable 0 false 0 = .ok (0, 0) ∧ (0 : Nat) ≠ 1) ∧
    ((alKeys ucbC8w.arms).Nodup ∧ ucbArmDisabledOrAbsent ucbC8w 1 = true ∧
      ucbDraw ucbC8w 0 0 = .ok (0, 0) ∧ (0 : Nat) ≠ 1) ∧
    ((alKeys tsC8w.arms).Nodup ∧ tsArmDisabledOrAbsent tsC8w 1 = true ∧
      (tsDraw tsC8w 0 (fun _ => 0)).2 = .ok (0, 0) ∧ (0 : Nat) ≠ 1) := by
  have hts : (tsDraw tsC8w 0 (fun _ => 0)).2 = .ok (0, 0) := by
    unfold tsDraw
    rw [tsCandidates_discountAll]
    rfl
  have hucb : ucbDraw ucbC8w 0 0 = .ok (0, 0) := by
    unfold ucbDraw
    rfl
  refine ⟨⟨by decide, ?_⟩, ⟨by decide, ?_⟩, ⟨by decide, by decide, ?_⟩,
    ⟨by decide, by decide, hucb, ?_⟩, ⟨?_, by rfl, hts, ?_⟩⟩
  · exact disabled_arm_excluded_from_draws_until_enable_or_reuse.1
      egC8base egC8afterDisable 1 (by decide)
  · exact disabled_arm_excluded_from_draws_until_enable_or_reuse.2.1
      egC8afterDisable 1 [.update 1 0 1] (by decide) (by decide)
  · exact disabled_arm_excluded_from_draws_until_enable_or_reuse.2.2.1
      egC8afterDisable 1 0 false 0 (0, 0) (by decide) (by decide) (by decide)
  · exact disabled_arm_excluded_from_draws_until_enable_or_reuse.2.2.2.1
      ucbC8w 1 0 0 (0, 0) (by decide) (by decide) hucb
  · show ([0, 1] : List Nat).Nodup
    decide
  · exact disabled_arm_excluded_from_draws_until_enable_or_reuse.2.2.2.2
      tsC8w 1 0 (fun _ => 0) (0, 0) (by show ([0,1] : List Nat).Nodup; decide) (by rfl) hts

theorem maxByVal_pair {A B : Type} [LinearOrder B] (f : A → B) (x y : A)
    (h : ¬ f x ≤ f y) : maxByVal f [x, y] = some x := by
  have hred : maxByVal f [x, y] = if f x ≤ f y then some y else some x := rfl
  rw [hred, if_neg h]

/-- C2 counterexample state: α = 1, arm 0 with mean 0 and count 1, arm 1
with mean 4/5 and count 7, so N = 8.  The code's score (no square root)
ranks arm 0 strictly higher, the spec's score (with the square root)
ranks arm 1 strictly higher. -/
def ucbC2arm0 : UcbArm := { reward := 0, count := 1, is_active := true }

def ucbC2arm1 : UcbArm := { reward := 4/5, count := 7, is_active := true }

def ucbC2state : Ucb :=
  { arms := [(0, ucbC2arm0), (1, ucbC2arm1)]
    alpha := 1
    rng := { seed := some 1, state := 1 } }

theorem ucbC2_log_eight : Real.log 8 = 3 * Real.log 2 := by
  rw [show (8 : ℝ) = 2 ^ 3 by norm_num, Real.log_pow]
  push_cast
  ring

theorem ucbC2_code_score_ranks_arm0 :
    ucbSample ucbC2state.alpha (ucbTotalCount ucbC2state) ucbC2arm1 <
      ucbSample ucbC2state.alpha (ucbTotalCount ucbC2state) ucbC2arm0 := by
  have h2 := Real.log_two_gt_d9
  unfold ucbSample ucbC2state ucbC2arm0 ucbC2arm1
  norm_num [ucbTotalCount, ucbC2arm0, ucbC2arm1]
  nlinarith [ucbC2_log_eight, h2]

/-- C2 counterexample: on `ucbC2state`, `draw()` returns arm 0, but arm 0
does not maximize the spec's score `reward + √(α·ln N/(2·count))` — arm 1's
spec score is strictly larger.  So `draw()` does not return the arm
maximizing the square-root formula. -/
theorem ucbDraw_not_argmax_of_spec_score :
    ucbDraw ucbC2state 0 0 = .ok (0, 0) ∧
    specUcbScore ucbC2state.alpha (ucbTotalCount ucbC2state) ucbC2arm0 <
      specUcbScore ucbC2state.alpha (ucbTotalCount ucbC2state) ucbC2arm1 := by
  constructor
  · have hne : ¬ ucbSample ucbC2state.alpha (ucbTotalCount ucbC2state) ucbC2arm0 ≤
        ucbSample ucbC2state.alpha (ucbTotalCount ucbC2state) ucbC2arm1 :=
      not_le.mpr ucbC2_code_score_ranks_arm0
    have hmax : maxByVal
        (fun p => ucbSample ucbC2state.alpha (ucbTotalCount ucbC2state) p.2)
        (ucbActiveArms ucbC2state) = some (0, ucbC2arm0) := by
      rw [show ucbActiveArms ucbC2state = [(0, ucbC2arm0), (1, ucbC2arm1)] from rfl]
      exact maxByVal_pair _ _ _ hne
    have hstep : ucbDraw ucbC2state 0 0 =
        match maxByVal
          (fun p => ucbSample ucbC2state.alpha (ucbTotalCount ucbC2state) p.2)
          (ucbActiveArms ucbC2state) with
        | none => Except.error PolicyError.NoArmsAvailable
        | some p => Except.ok ((0 : ℚ), p.1) := rfl
    rw [hstep, hmax]
  · have h2l := Real.log_two_gt_d9
    have h2u := Real.log_two_lt_d9
    have hs1 : Real.sqrt (Real.log 8 / 2) < 102/100 := by
      rw [Real.sqrt_lt' (by norm_num)]
      nlinarith [ucbC2_log_eight]
    have hs2 : (385/1000 : ℝ) < Real.sqrt (Real.log 8 / 14) := by
      rw [Real.lt_sqrt (by norm_num)]
      nlinarith [ucbC2_log_eight]
    have hN : ucbTotalCount ucbC2state = 8 := rfl
    have hA : ucbC2state.alpha = 1 := rfl
    rw [hN, hA]
    show ((0 : ℚ) : ℝ) + Real.sqrt (((1 : ℚ) : ℝ) * Real.log ((8 : ℕ) : ℝ) / (2 * ((1 : ℕ) : ℝ))) <
      ((4/5 : ℚ) : ℝ) + Real.sqrt (((1 : ℚ) : ℝ) * Real.log ((8 : ℕ) : ℝ) / (2 * ((7 : ℕ) : ℝ)))
    have e1 : ((1 : ℚ) : ℝ) * Real.log ((8 : ℕ) : ℝ) / (2 * ((1 : ℕ) : ℝ)) =
        Real.log 8 / 2 := by
      push_cast
      ring
    have e2 : ((1 : ℚ) : ℝ) * Real.log ((8 : ℕ) : ℝ) / (2 * ((7 : ℕ) : ℝ)) =
        Real.log 8 / 14 := by
      push_cast
      ring
    have e0 : ((0 : ℚ) : ℝ) = 0 := by norm_num
    have e45 : ((4/5 : ℚ) : ℝ) = 4/5 := by norm_num
    rw [e1, e2, e0, e45]
    linarith [hs1, hs2]

/-- C2 amended: when the UCB policy has at least one active arm and every
active arm has `count > 0` (so the warm-up branch does not fire), `draw()`
returns an active arm maximizing the code's score
`reward(a) + α·ln(N)/(2·count(a))` — the formula of `UcbArm::sample`,
which applies no square root — where `N` is the total count over active
arms. -/
theorem ucbDraw_returns_argmax_of_code_score
    (u : Ucb) (now : ℚ) (k : Nat)
    (hne : ucbActiveArms u ≠ [])
    (hcount : ∀ p ∈ ucbActiveArms u, p.2.count ≠ 0) :
    ∃ p ∈ ucbActiveArms u, ucbDraw u now k = .ok (now, p.1) ∧
      ∀ q ∈ ucbActiveArms u,
        ucbSample u.alpha (ucbTotalCount u) q.2 ≤
          ucbSample u.alpha (ucbTotalCount u) p.2 := by
  have hwarm : u.arms.filter (fun p => p.2.is_active && p.2.count == 0) = [] := by
    rw [List.filter_eq_nil_iff]
    intro p hp
    simp only [Bool.and_eq_true, beq_iff_eq, not_and]
    intro hact
    exact hcount p (List.mem_filter.mpr ⟨hp, by simp [hact]⟩)
  obtain ⟨r, hr⟩ := maxByVal_ne_nil
    (fun p => ucbSample u.alpha (ucbTotalCount u) p.2) (ucbActiveArms u) hne
  refine ⟨r, maxByVal_mem _ _ _ hr, ?_, maxByVal_le _ _ _ hr⟩
  unfold ucbDraw
  rw [hwarm]
  simp [choose_nil, hr]

def ucbC2w : Ucb :=
  { arms := [(0, { reward := 0, count := 1, is_active := true }),
             (1, { reward := 1, count := 1, is_active := true })]
    alpha := 1
    rng := { seed := none, state := 0 } }

theorem ucbDraw_returns_argmax_of_code_score_witness :
    (ucbActiveArms ucbC2w ≠ [] ∧ ∀ p ∈ ucbActiveArms ucbC2w, p.2.count ≠ 0) ∧
    ∃ p ∈ ucbActiveArms ucbC2w, ucbDraw ucbC2w 0 0 = .ok (0, p.1) ∧
      ∀ q ∈ ucbActiveArms ucbC2w,
        ucbSample ucbC2w.alpha (ucbTotalCount ucbC2w) q.2 ≤
          ucbSample ucbC2w.alpha (ucbTotalCount ucbC2w) p.2 :=
  ⟨⟨by decide, by decide⟩,
   ucbDraw_returns_argmax_of_code_score ucbC2w 0 0 (by decide) (by decide)⟩

/-- Arms and state for the C5 analysis: `α = β = 1`, `last_ts = 0`, with
and without a 60-second halflife. -/
noncomputable def tsC5armNone : ThomsonSamplingArm :=
  { alpha := 1, beta := 1, count := 0, halflife_seconds := none
    last_ts := 0, is_active := true }

noncomputable def tsC5armHl : ThomsonSamplingArm :=
  { alpha := 1, beta := 1, count := 0, halflife_seconds := some 60
    last_ts := 0, is_active := true }

noncomputable def tsC5state : ThomsonSampling :=
  { halflife_seconds := some 60
    arms := [(0, tsC5armHl), (1, tsC5armHl)]
    rng := { seed := some 1, state := 1 } }

theorem tsC5_discount_value :
    max ((1 : ℝ) * Real.exp (-((60 : ℝ) - 0) * Real.log 2 / 60)) EPS = 1/2 := by
  have harg : -((60 : ℝ) - 0) * Real.log 2 / 60 = -Real.log 2 := by ring
  rw [harg, Real.exp_neg, Real.exp_log (by norm_num : (0 : ℝ) < 2)]
  rw [max_eq_left]
  · norm_num
  · unfold EPS
    norm_num

/-- C5 counterexample: (i) with `halflife` unset, `apply_discount` still
advances `last_ts` (from 0 to the call timestamp 1), contradicting
"alpha, beta and last_ts are unchanged by discounting"; (ii) an `update`
targeting arm 0 at t = 60 leaves active arm 1 completely undiscounted
(still `α = 1`, not the discounted value `max(α·exp(−60·ln2/60), EPS) =
1/2` the claim demands for every active arm before each update). -/
theorem tsDiscount_claim_false_on_update_and_unset_halflife :
    (applyDiscount tsC5armNone 1).last_ts ≠ tsC5armNone.last_ts ∧
    alGet 1 ((tsUpdate tsC5state 60 0 1).1.arms) = some tsC5armHl ∧
    tsC5armHl.alpha ≠
      max (tsC5armHl.alpha * Real.exp (-((60 : ℝ) - tsC5armHl.last_ts) * Real.log 2 / 60)) EPS := by
  refine ⟨?_, ?_, ?_⟩
  · show (1 : ℝ) ≠ 0
    norm_num
  · have hget : alGet 0 tsC5state.arms = some tsC5armHl := rfl
    have hupd : (tsUpdate tsC5state 60 0 1).1.arms =
        alUpdate 0 (fun a => tsArmUpdate a 1 60) tsC5state.arms := by
      simp [tsUpdate, hget]
    rw [hupd]
    have hne : (1 : Nat) ≠ 0 := by norm_num
    rw [alGet_update_ne 0 1 _ _ hne]
    rfl
  · show (1 : ℝ) ≠ max ((1 : ℝ) * Real.exp (-((60 : ℝ) - 0) * Real.log 2 / 60)) EPS
    rw [tsC5_discount_value]
    norm_num

/-- C5 amended: with `halflife = h` set, `apply_discount(t)` multiplies
both `α` and `β` by `exp(−(t − last_ts)·ln 2 / h)`, clamps each below at
`EPS = 1e-6`, and advances `last_ts` to `t`; with `halflife` unset it
leaves `α` and `β` unchanged apart from the same `EPS` clamp but still
advances `last_ts`.  Each `draw` discounts every *active* arm (inactive
arms are untouched); each `update` discounts only the *targeted* arm
(active or not) and leaves every other arm untouched.  In particular with
halflife 60 s and `α = β = 1`, advancing time by 60 s yields
`α = β = 0.5`. -/
theorem ts_time_discount_semantics :
    (∀ (a : ThomsonSamplingArm) (t h : ℝ), a.halflife_seconds = some h →
      (applyDiscount a t).alpha =
        max (a.alpha * Real.exp (-(t - a.last_ts) * Real.log 2 / h)) EPS ∧
      (applyDiscount a t).beta =
        max (a.beta * Real.exp (-(t - a.last_ts) * Real.log 2 / h)) EPS ∧
      (applyDiscount a t).last_ts = t ∧
      (applyDiscount a t).count = a.count ∧
      (applyDiscount a t).is_active = a.is_active) ∧
    (∀ (a : ThomsonSamplingArm) (t : ℝ), a.halflife_seconds = none →
      (applyDiscount a t).alpha = max a.alpha EPS ∧
      (applyDiscount a t).beta = max a.beta EPS ∧
      (applyDiscount a t).last_ts = t) ∧
    (∀ (s : ThomsonSampling) (now : ℝ) (sv : Nat → ℝ),
      (tsDraw s now sv).1.arms =
        s.arms.map (fun p => (p.1, if p.2.is_active then applyDiscount p.2 now else p.2))) ∧
    (∀ (s : ThomsonSampling) (t : ℝ) (aid : Nat) (r : ℝ) (arm : ThomsonSamplingArm),
      alGet aid s.arms = some arm →
      alGet aid ((tsUpdate s t aid r).1.arms) = some (tsArmUpdate arm r t) ∧
      ∀ b, b ≠ aid → alGet b ((tsUpdate s t aid r).1.arms) = alGet b s.arms) ∧
    ((applyDiscount tsC5armHl 60).alpha = 1/2 ∧ (applyDiscount tsC5armHl 60).beta = 1/2) := by
  refine ⟨?_, ?_, ?_, ?_, ?_, ?_⟩
  · intro a t h hsome
    simp [applyDiscount, decayWeight, hsome]
  · intro a t hnone
    simp [applyDiscount, decayWeight, hnone]
  · intro s now sv
    unfold tsDraw
    cases hm : maxByVal (fun q : Nat × ℝ => q.2) (tsCandidates (tsDiscountAll s now) sv) <;>
      simp [hm, tsDiscountAll]
  · intro s t aid r arm hget
    have hupd : (tsUpdate s t aid r).1.arms =
        alUpdate aid (fun a => tsArmUpdate a r t) s.arms := by
      simp [tsUpdate, hget]
    constructor
    · rw [hupd, alGet_update_eq, hget]
      rfl
    · intro b hb
      rw [hupd, alGet_update_ne aid b _ _ hb]
  · show max ((1 : ℝ) * Real.exp (-((60 : ℝ) - 0) * Real.log 2 / 60)) EPS = 1/2
    exact tsC5_discount_value
  · show max ((1 : ℝ) * Real.exp (-((60 : ℝ) - 0) * Real.log 2 / 60)) EPS = 1/2
    exact tsC5_discount_value

theorem ts_time_discount_semantics_witness :
    (tsC5armHl.halflife_seconds = some 60 ∧
      (applyDiscount tsC5armHl 60).alpha =
        max (tsC5armHl.alpha * Real.exp (-((60 : ℝ) - tsC5armHl.last_ts) * Real.log 2 / 60)) EPS) ∧
    (tsC5armNone.halflife_seconds = none ∧
      (applyDiscount tsC5armNone 1).last_ts = 1) ∧
    (alGet 0 tsC5state.arms = some tsC5armHl ∧
      alGet 0 ((tsUpdate tsC5state 60 0 1).1.arms) = some (tsArmUpdate tsC5armHl 1 60) ∧
      alGet 1 ((tsUpdate tsC5state 60 0 1).1.arms) = alGet 1 tsC5state.arms) :=
  ⟨⟨rfl, ((ts_time_discount_semantics.1 tsC5armHl 60 60 rfl).1)⟩,
   ⟨rfl, ((ts_time_discount_semantics.2.1 tsC5armNone 1 rfl).2.2)⟩,
   ⟨rfl, (ts_time_discount_semantics.2.2.2.1 tsC5state 60 0 1 tsC5armHl rfl).1,
     (ts_time_discount_semantics.2.2.2.1 tsC5state 60 0 1 tsC5armHl rfl).2 1 (by norm_num)⟩⟩

end RustBandits
